import Mathlib

/-!
Verification of the arcanumcube-demo search core: the binary-heap priority
queue (`src/heapqueue.ts`) and the worker-based solver loop
(`src/solver.ts`), shallowly embedded in Lean.

Numeric values (priorities, heuristic distances) are modelled as rationals;
the source only ever compares them, never rounds them.
-/

set_option linter.unusedVariables false

namespace ArcDemo

/-! ### HeapQueue (src/heapqueue.ts)

`HeapQueueValue<T> = { priority, counter, task }` -/

structure HQV (T : Type) where
  priority : ℚ
  counter : Nat
  task : T
  deriving DecidableEq, Repr

variable {T : Type}

/-- The comparison in `_bubble`:
`v.priority < p.priority || (v.priority === p.priority && v.counter < p.counter)`. -/
def bubbleCond (v p : HQV T) : Bool :=
  v.priority < p.priority || (v.priority == p.priority && v.counter < p.counter)

/-- The child-selection comparison in `_sink`:
`c2.priority < c.priority || (c2.priority === c.priority && c2.counter < c.counter)`. -/
def sinkSel (c2 c : HQV T) : Bool :=
  c2.priority < c.priority || (c2.priority == c.priority && c2.counter < c.counter)

/-- The swap-down comparison in `_sink`:
`v.priority > c.priority || (v.priority === c.priority && v.counter < c.counter)`. -/
def sinkSwapCond (v c : HQV T) : Bool :=
  v.priority > c.priority || (v.priority == c.priority && v.counter < c.counter)

/-- Fuel-indexed body of `HeapQueue._bubble(index, v)`.  The JS array
`this._queue` is the list `q`; `(index - 1) >>> 1` is `(index - 1) / 2` for
`index ≥ 1` (the `index <= 0` early return makes the two agree everywhere).
The recursion moves from `index` to its parent, so `fuel = index` never runs
out; the `0` base case coincides with the `index <= 0` early return whenever
`fuel ≥ index` holds (see `bubble`). -/
def bubbleF : Nat → List (HQV T) → Nat → HQV T → List (HQV T)
  | 0, q, _, _ => q
  | fuel + 1, q, index, v =>
    if index = 0 then q
    else
      match q.get? ((index - 1) / 2) with
      | none => q
      | some p =>
        if bubbleCond v p then
          bubbleF fuel ((q.set ((index - 1) / 2) v).set index p) ((index - 1) / 2) v
        else q

/-- `HeapQueue._bubble(index, v)`. -/
def bubble (q : List (HQV T)) (index : Nat) (v : HQV T) : List (HQV T) :=
  bubbleF index q index v

/-- Fuel-indexed body of `HeapQueue._sink(index, v)`.  `child = (index << 1) + 1`,
`child2 = (index << 1) + 2`; `child >= len` iff `q.get? child = none`.
The duplicated `else`-branch mirrors the source's fall-through from the
`child2` block to the `child` comparison.  The recursion moves from `index` to
a child `< q.length`, so `fuel = q.length - index` never runs out, and the `0`
base case (forcing `q.length ≤ index`, hence no child) coincides with the
`child >= len` early return (see `sink`). -/
def sinkF : Nat → List (HQV T) → Nat → HQV T → List (HQV T)
  | 0, q, _, _ => q
  | fuel + 1, q, index, v =>
    match q.get? (2 * index + 1) with
    | none => q
    | some c =>
      match q.get? (2 * index + 2) with
      | some c2 =>
        if sinkSel c2 c && sinkSwapCond v c2 then
          sinkF fuel ((q.set (2 * index + 2) v).set index c2) (2 * index + 2) v
        else if sinkSwapCond v c then
          sinkF fuel ((q.set (2 * index + 1) v).set index c) (2 * index + 1) v
        else bubble q index v
      | none =>
        if sinkSwapCond v c then
          sinkF fuel ((q.set (2 * index + 1) v).set index c) (2 * index + 1) v
        else bubble q index v

/-- `HeapQueue._sink(index, v)`. -/
def sink (q : List (HQV T)) (index : Nat) (v : HQV T) : List (HQV T) :=
  sinkF (q.length - index) q index v

/-- `HeapQueue<T>` state: the backing array and the insertion counter. -/
structure HeapQueue (T : Type) where
  queue : List (HQV T)
  counter : Nat
  deriving DecidableEq, Repr

/-- `new HeapQueue()`. -/
def HeapQueue.empty : HeapQueue T := ⟨[], 0⟩

/-- `heappush(priority, task)`: append `{priority, counter, task}` and bubble
it up from the old last index. -/
def heappush (q : HeapQueue T) (priority : ℚ) (task : T) : HeapQueue T :=
  let len := q.queue.length
  let v : HQV T := ⟨priority, q.counter, task⟩
  { queue := bubble (q.queue ++ [v]) len v, counter := q.counter + 1 }

/-- `heappop()`: returns `queue[0].task` (or `undefined` on empty), removes the
last element, writes it over slot 0 and sinks it (when more than one element
remains).  Returns the popped task together with the updated queue. -/
def heappop (q : HeapQueue T) : Option T × HeapQueue T :=
  match q.queue with
  | [] => (none, q)
  | v :: _ =>
    let rest := q.queue.dropLast
    let queue' :=
      if q.queue.length > 1 then
        match q.queue.getLast? with
        | some n => sink (rest.set 0 n) 0 n
        | none => rest
      else rest
    (some v.task, { q with queue := queue' })

/-- `length()`. -/
def HeapQueue.size (q : HeapQueue T) : Nat := q.queue.length

/-- A sequence of `heappush` calls (in list order). -/
def pushList (q : HeapQueue T) : List (ℚ × T) → HeapQueue T
  | [] => q
  | (p, t) :: rest => pushList (heappush q p t) rest

/-- Repeated `heappop` until the queue is empty, collecting the returned
tasks (fuel-indexed helper). -/
def popAllAux : Nat → HeapQueue T → List T
  | 0, _ => []
  | fuel + 1, q =>
    match heappop q with
    | (none, _) => []
    | (some t, q') => t :: popAllAux fuel q'

/-- Repeated `heappop` until the queue is empty. -/
def popAll (q : HeapQueue T) : List T := popAllAux q.queue.length q

/-! ### Binary-heap index structure -/

/-- `j` is an array child of `i` in the implicit binary tree. -/
def isChild (i j : Nat) : Prop := j = 2 * i + 1 ∨ j = 2 * i + 2

/-! ### Heap-order predicates (on priorities) -/

/-- Min-heap property on priorities: every parent is `≤` its children. -/
def heapProp (q : List (HQV T)) : Prop :=
  ∀ i j a b, isChild i j → q.get? i = some a → q.get? j = some b →
    a.priority ≤ b.priority

/-- Heap property except possibly at the edge from `k`'s parent down to `k`. -/
def heapExceptAt (q : List (HQV T)) (k : Nat) : Prop :=
  ∀ i j a b, isChild i j → j ≠ k → q.get? i = some a → q.get? j = some b →
    a.priority ≤ b.priority

/-- Heap property except possibly at the edges from `k` down to its children. -/
def heapExceptUnder (q : List (HQV T)) (k : Nat) : Prop :=
  ∀ i j a b, isChild i j → i ≠ k → q.get? i = some a → q.get? j = some b →
    a.priority ≤ b.priority

/-- `k`'s parent is `≤` all children of `k` (vacuous for the root). -/
def parentDomChildren (q : List (HQV T)) (k : Nat) : Prop :=
  ∀ j p c, k ≠ 0 → isChild k j → q.get? ((k - 1) / 2) = some p →
    q.get? j = some c → p.priority ≤ c.priority

/-! ### Solver worker (src/solver.ts)

`solve(stickers, batchSize, n, l)` runs a batched best-first search.  The
external collaborators (the `arcanumcube` move semantics and the TensorFlow
model) are abstracted into a record of pure functions; the TensorFlow
resource events (`tf.engine().startScope()/endScope()`, `model.dispose()`,
`tf.loadLayersModel`, `model.predict`) and the worker messages
(`self.postMessage`) are recorded in an instrumentation trace. -/

section Solver

variable {State Twist Key : Type} [DecidableEq Key]

/-- The external collaborators consumed by `solve`.  `fingerprint` models
`state.join('')`; `predictOne` models the batched `model.predict`
positionally (one estimate per encoded state, deterministic per state). -/
structure CubeAPI (State Twist Key : Type) where
  SINGLE_TWIST_LIST : List Twist
  getNextStickerColors : State → Twist → State
  MatchGoalState : State → Bool
  fingerprint : State → Key
  predictOne : State → ℚ

/-- A queue task of `solve`: `{ distance, state, answer }`. -/
structure SNode (State Twist : Type) where
  distance : ℚ
  state : State
  answer : List Twist
  deriving DecidableEq, Repr

/-- `visitedStates[id] = n` on the JS object modelled as an association
list (one entry per key). -/
def setVisited : List (Key × Nat) → Key → Nat → List (Key × Nat)
  | [], k, n => [(k, n)]
  | (k', n') :: rest, k, n =>
    if k' = k then (k, n) :: rest else (k', n') :: setVisited rest k n

/-- `id in visitedStates ? visitedStates[id] : undefined`. -/
def getVisited : List (Key × Nat) → Key → Option Nat
  | [], _ => none
  | (k', n') :: rest, k => if k' = k then some n' else getVisited rest k

/-- Instrumentation of one `solve` run: TensorFlow resource events, worker
progress messages, and ghost logs of the yielded successors
(`keptLog`: parent distance and successor path length, in yield order) and
of the expanded nodes (`popLog`: popped path length and the ledger's
recorded cost for the popped state at pop time). -/
structure STrace where
  scopeStarts : Nat
  scopeEnds : Nat
  disposes : Nat
  modelLoads : Nat
  predictCalls : Nat
  roundsStarted : Nat
  msgs : List ℚ
  keptLog : List (ℚ × Nat)
  popLog : List (Nat × Option Nat)
  deriving DecidableEq, Repr

/-- The ways a (fuel-indexed) `solve` run can end. -/
inductive SolveOutcome (Twist : Type) where
  | alreadySolved
  | goalFound (answer : List Twist)
  | exhausted
  | outOfFuel
  deriving DecidableEq, Repr

/-- The move sequence `solve` resolves with (`[]` on the non-goal exits). -/
def SolveOutcome.answerList {Twist : Type} : SolveOutcome Twist → List Twist
  | .goalFound a => a
  | _ => []

/-- One iteration of the inner `for (const action of SINGLE_TWIST_LIST)`
loop of `getNextStateAndAnswers` (solver.ts lines 40-52): compute the
successor, consult and update `visitedStates`, and yield the successor
exactly when its id is absent or recorded with a larger path length. -/
def processAction (api : CubeAPI State Twist Key) (v : SNode State Twist)
    (visited : List (Key × Nat)) (action : Twist) :
    List (Key × Nat) × Option (State × List Twist) :=
  -- next_state := getNextStickerColors(v.state, action)
  -- next_answer := [...v.answer, action];  next_state_id := next_state.join('')
  match getVisited visited (api.fingerprint (api.getNextStickerColors v.state action)) with
  | none =>
    (setVisited visited (api.fingerprint (api.getNextStickerColors v.state action))
        (v.answer ++ [action]).length,
      some (api.getNextStickerColors v.state action, v.answer ++ [action]))
  | some prev =>
    if prev > (v.answer ++ [action]).length then
      (setVisited visited (api.fingerprint (api.getNextStickerColors v.state action))
          (v.answer ++ [action]).length,
        some (api.getNextStickerColors v.state action, v.answer ++ [action]))
    else (visited, none)

/-- Result of expanding the actions of one popped node, interleaved with
the consumer loop body (solver.ts lines 81-96): either the generator runs
dry for this node, or a kept successor satisfies the goal test and the
whole search returns. -/
inductive ExpandResult (State Twist Key : Type) where
  | go (visited : List (Key × Nat)) (tr : STrace) (kept : List (State × List Twist))
  | found (answer : List Twist) (visited : List (Key × Nat)) (tr : STrace)

/-- Expansion of one popped node `v`: for each action in order, filter via
`processAction`; each yielded successor first posts a progress message when
`v.distance > 0` (line 85), is collected, and is then goal-tested (line 89) —
the first goal successor short-circuits the whole search. -/
def expandActions (api : CubeAPI State Twist Key) (v : SNode State Twist) :
    List Twist → List (Key × Nat) → STrace → List (State × List Twist) →
    ExpandResult State Twist Key
  | [], visited, tr, kept => .go visited tr kept
  | action :: acts, visited, tr, kept =>
    match processAction api v visited action with
    | (visited', none) => expandActions api v acts visited' tr kept
    | (visited', some (next_state, next_answer)) =>
      if api.MatchGoalState next_state then
        .found next_answer visited'
          { tr with
            msgs := tr.msgs ++ (if v.distance > 0 then [v.distance] else []),
            keptLog := tr.keptLog ++ [(v.distance, next_answer.length)] }
      else
        expandActions api v acts visited'
          { tr with
            msgs := tr.msgs ++ (if v.distance > 0 then [v.distance] else []),
            keptLog := tr.keptLog ++ [(v.distance, next_answer.length)] }
          (kept ++ [(next_state, next_answer)])

/-- Result of one round's pop loop. -/
inductive RoundResult (State Twist Key : Type) where
  | completed (queue : HeapQueue (SNode State Twist)) (visited : List (Key × Nat))
      (tr : STrace) (kept : List (State × List Twist))
  | found (answer : List Twist) (queue : HeapQueue (SNode State Twist))
      (visited : List (Key × Nat)) (tr : STrace)

/-- The round's pop loop (`for (let i = 0; i < range; i++)` in
`getNextStateAndAnswers`, lines 36-53, driven lazily by the consumer):
pop up to `range` nodes, skip empty pops (`if (!v) continue`), expand each
popped node, and stop the whole round at the first goal successor.
Each pop is ghost-logged with the popped path length and the ledger's
current record for the popped state. -/
def procPops (api : CubeAPI State Twist Key) :
    Nat → HeapQueue (SNode State Twist) → List (Key × Nat) → STrace →
    List (State × List Twist) → RoundResult State Twist Key
  | 0, queue, visited, tr, kept => .completed queue visited tr kept
  | range + 1, queue, visited, tr, kept =>
    match heappop queue with
    | (none, queue') => procPops api range queue' visited tr kept
    | (some v, queue') =>
      let tr' : STrace := { tr with
        popLog := tr.popLog ++ [(v.answer.length, getVisited visited (api.fingerprint v.state))] }
      match expandActions api v api.SINGLE_TWIST_LIST visited tr' kept with
      | .go visited' tr'' kept' => procPops api range queue' visited' tr'' kept'
      | .found answer visited' tr'' => .found answer queue' visited' tr''

/-- The `while (queue.length() > 0)` loop of `solve` (lines 76-115), with a
fuel bound on the number of rounds.  A completed round issues one batched
predict call (lines 98-103, executed even for an empty batch) and re-inserts
each kept successor with priority `l * next_answer.length + distance`
(lines 107-114); a goal exit disposes the model and ends the scope
(lines 90-91); frontier exhaustion ends the scope (line 118). -/
def solveLoop (api : CubeAPI State Twist Key) (batchSize n : Nat) (l : ℚ) :
    Nat → HeapQueue (SNode State Twist) → List (Key × Nat) → STrace →
    SolveOutcome Twist × STrace
  | 0, _, _, tr => (.outOfFuel, tr)
  | fuel + 1, queue, visited, tr =>
    if queue.size = 0 then
      (.exhausted, { tr with scopeEnds := tr.scopeEnds + 1 })
    else
      match procPops api (min n queue.size) queue visited
          { tr with roundsStarted := tr.roundsStarted + 1 } [] with
      | .found answer _ _ tr2 =>
        (.goalFound answer,
          { tr2 with disposes := tr2.disposes + 1, scopeEnds := tr2.scopeEnds + 1 })
      | .completed queue' visited' tr2 kept =>
        solveLoop api batchSize n l fuel
          (kept.foldl (fun qq sa =>
            heappush qq (l * (sa.2.length : ℚ) + api.predictOne sa.1)
              { distance := api.predictOne sa.1, state := sa.1, answer := sa.2 }) queue')
          visited' { tr2 with predictCalls := tr2.predictCalls + 1 }

/-- The empty instrumentation trace after `tf.engine().startScope()`
(line 29, executed before anything else). -/
def initTrace : STrace :=
  { scopeStarts := 1, scopeEnds := 0, disposes := 0, modelLoads := 0,
    predictCalls := 0, roundsStarted := 0, msgs := [], keptLog := [], popLog := [] }

/-- `solve(stickers, batchSize, n, l)` with a fuel bound on the rounds:
start the scope, return `[]` at once when already solved (lines 56-59, before
the model is loaded), otherwise load the model (line 64), seed the queue with
`heappush(0, {distance: 0, state: stickers, answer: []})` and the ledger with
`{[stickers.join('')]: 0}` (lines 73-74), and run the round loop. -/
def solveFuel (api : CubeAPI State Twist Key) (stickers : State)
    (batchSize n : Nat) (l : ℚ) (fuel : Nat) : SolveOutcome Twist × STrace :=
  if api.MatchGoalState stickers then (.alreadySolved, initTrace)
  else
    solveLoop api batchSize n l fuel
      (heappush HeapQueue.empty 0
        ({ distance := 0, state := stickers, answer := [] } : SNode State Twist))
      [(api.fingerprint stickers, 0)]
      { initTrace with modelLoads := 1 }

/-- `SolverMessage = { distance, answer? }`. -/
structure SolverMessage (Twist : Type) where
  distance : ℚ
  answer : Option (List Twist)
  deriving DecidableEq, Repr

/-- The messages posted across the worker boundary for one run: each
progress message `{ distance }` (line 85) in order, then the terminal
`{ distance: -1, answer }` posted by `self.onmessage`'s continuation
(line 19). -/
def workerStream (o : SolveOutcome Twist) (tr : STrace) : List (SolverMessage Twist) :=
  tr.msgs.map (fun d => { distance := d, answer := none }) ++
    [{ distance := -1, answer := some o.answerList }]

/-- Successive application of a move sequence to a state via the external
transition function. -/
def applyMoves (api : CubeAPI State Twist Key) (s : State) (ans : List Twist) : State :=
  ans.foldl api.getNextStickerColors s


/-- A kept `(state, answer)` pair is sound for the initial state `init`:
its moves are legal and replaying them from `init` reaches its state. -/
def goodPair (api : CubeAPI State Twist Key) (init : State)
    (sa : State × List Twist) : Prop :=
  (∀ t ∈ sa.2, t ∈ api.SINGLE_TWIST_LIST) ∧ applyMoves api init sa.2 = sa.1

/-- Soundness of a queue task. -/
def goodNode (api : CubeAPI State Twist Key) (init : State)
    (nd : SNode State Twist) : Prop :=
  goodPair api init (nd.state, nd.answer)

/-- The progress messages a kept-successor log induces: one message per
logged successor whose expanded parent had a strictly positive distance. -/
def msgsOfKept (log : List (ℚ × Nat)) : List ℚ :=
  log.filterMap (fun e => if 0 < e.1 then some e.1 else none)

/-- The trace carried by an expansion result. -/
def ExpandResult.trace : ExpandResult State Twist Key → STrace
  | .go _ tr _ => tr
  | .found _ _ tr => tr

/-- The trace carried by a round result. -/
def RoundResult.trace : RoundResult State Twist Key → STrace
  | .completed _ _ tr _ => tr
  | .found _ _ _ tr => tr

/-! ### Toy instances used for concrete runs -/

/-- One legal move `1`; `getNext s t = s + t`; goal state `1`.  The first
round expands the root (distance `0`) and finds the goal at path `[1]`. -/
def apiGoalToy : CubeAPI Nat Nat Nat :=
  { SINGLE_TWIST_LIST := [1], getNextStickerColors := fun s t => s + t,
    MatchGoalState := fun s => s == 1, fingerprint := id, predictOne := fun _ => 0 }

/-- Every state satisfies the goal test: `solve` takes the already-solved
early return. -/
def apiSolvedToy : CubeAPI Nat Nat Nat :=
  { SINGLE_TWIST_LIST := [1], getNextStickerColors := fun s _ => s,
    MatchGoalState := fun _ => true, fingerprint := id, predictOne := fun _ => 0 }

/-- A single self-loop state and an unreachable goal: the only successor is
always pruned by the ledger, so the frontier empties in one round. -/
def apiLoopToy : CubeAPI Nat Nat Nat :=
  { SINGLE_TWIST_LIST := [1], getNextStickerColors := fun s _ => s,
    MatchGoalState := fun _ => false, fingerprint := id, predictOne := fun _ => 0 }

/-- Transition table of the stale-re-expansion scenario: state `5` is first
reached from `3` at path length 3, later from `1` at path length 2. -/
def c4Next (s t : Nat) : Nat :=
  match s, t with
  | 0, 1 => 1 | 0, 2 => 2
  | 2, 1 => 3 | 2, 2 => 4
  | 3, 1 => 5 | 3, 2 => 6
  | 1, 1 => 5 | 1, 2 => 7
  | 5, 1 => 8 | 5, 2 => 9
  | _, _ => 100 + 10 * s + t

/-- Heuristic values steering the pop order of the stale-re-expansion
scenario. -/
def c4Predict (s : Nat) : ℚ :=
  match s with
  | 1 => 100 | 2 => 0 | 3 => 0 | 4 => 300 | 5 => 200 | 6 => 300 | 7 => 300 | _ => 300

/-- The stale-re-expansion scenario: with one pop per round and `l = 1`, the
long path to state `5` (length 3) is enqueued before the short one
(length 2); the short copy updates the ledger to 2 and is expanded first,
after which the stale length-3 copy is still popped and expanded. -/
def apiStaleToy : CubeAPI Nat Nat Nat :=
  { SINGLE_TWIST_LIST := [1, 2], getNextStickerColors := c4Next,
    MatchGoalState := fun _ => false, fingerprint := id, predictOne := c4Predict }

end Solver

theorem nth_some_lt {α : Type} {q : List α} {i : Nat} {a : α}
    (h : q.get? i = some a) : i < q.length := by
  by_contra hn
  rw [List.get?_eq_none.2 (by omega)] at h
  exact Option.noConfusion h

theorem isChild_bounds {i j : Nat} (h : isChild i j) : i = (j - 1) / 2 ∧ i < j ∧ 1 ≤ j := by
  rcases h with h | h <;> omega

theorem isChild_parent {j : Nat} (h : 1 ≤ j) : isChild ((j - 1) / 2) j := by
  unfold isChild
  omega

/-! ### The comparison conditions, on the priority component -/

theorem bubbleCond_le {v p : HQV T} (h : bubbleCond v p = true) :
    v.priority ≤ p.priority := by
  simp only [bubbleCond, Bool.or_eq_true, Bool.and_eq_true, decide_eq_true_eq,
    beq_iff_eq] at h
  rcases h with h | h
  · exact le_of_lt h
  · exact le_of_eq h.1

theorem bubbleCond_false_le {v p : HQV T} (h : bubbleCond v p = false) :
    p.priority ≤ v.priority := by
  simp only [bubbleCond, Bool.or_eq_false_iff, Bool.and_eq_false_iff,
    decide_eq_false_iff_not, not_lt] at h
  exact h.1

theorem sinkSel_le {c2 c : HQV T} (h : sinkSel c2 c = true) :
    c2.priority ≤ c.priority := by
  simp only [sinkSel, Bool.or_eq_true, Bool.and_eq_true, decide_eq_true_eq,
    beq_iff_eq] at h
  rcases h with h | h
  · exact le_of_lt h
  · exact le_of_eq h.1

theorem sinkSel_false_le {c2 c : HQV T} (h : sinkSel c2 c = false) :
    c.priority ≤ c2.priority := by
  simp only [sinkSel, Bool.or_eq_false_iff, Bool.and_eq_false_iff,
    decide_eq_false_iff_not, not_lt] at h
  exact h.1

theorem sinkSwapCond_le {v c : HQV T} (h : sinkSwapCond v c = true) :
    c.priority ≤ v.priority := by
  simp only [sinkSwapCond, Bool.or_eq_true, Bool.and_eq_true, decide_eq_true_eq,
    beq_iff_eq] at h
  rcases h with h | h
  · exact le_of_lt h
  · exact le_of_eq h.1.symm

theorem sinkSwapCond_false_le {v c : HQV T} (h : sinkSwapCond v c = false) :
    v.priority ≤ c.priority := by
  simp only [sinkSwapCond, Bool.or_eq_false_iff, Bool.and_eq_false_iff,
    decide_eq_false_iff_not, not_lt] at h
  exact h.1

/-! ### Reading and permuting after a two-slot swap -/

theorem nth_swap {α : Type} {q : List α} {i j : Nat} (a b : α) (hij : i ≠ j)
    (hi : i < q.length) (hj : j < q.length) (x : Nat) :
    ((q.set i a).set j b).get? x =
      if x = j then some b else if x = i then some a else q.get? x := by
  by_cases hxj : x = j
  · subst hxj
    rw [if_pos rfl, List.get?_set_eq_of_lt]
    rwa [List.length_set]
  · rw [if_neg hxj, List.get?_set_ne _ _ (fun h => hxj h.symm)]
    by_cases hxi : x = i
    · subst hxi
      rw [if_pos rfl, List.get?_set_eq_of_lt _ hi]
    · rw [if_neg hxi, List.get?_set_ne _ _ (fun h => hxi h.symm)]

theorem cons_set_perm {α : Type} (a : α) :
    ∀ (xs : List α) (k : Nat) (b : α), xs.get? k = some b →
      List.Perm (b :: xs.set k a) (a :: xs)
  | [], k, b, h => absurd h (by simp)
  | x :: t, 0, b, h => by
    simp only [List.get?] at h
    injection h with h
    subst h
    simpa using List.Perm.swap a x t
  | x :: t, k + 1, b, h => by
    simp only [List.get?] at h
    simp only [List.set]
    exact (List.Perm.swap x b (t.set k a)).trans
      ((List.Perm.cons x (cons_set_perm a t k b h)).trans (List.Perm.swap a x t))

theorem set_set_perm {α : Type} (q : List α) :
    ∀ (i j : Nat) (a b : α), i ≠ j → q.get? i = some a → q.get? j = some b →
      List.Perm ((q.set i b).set j a) q := by
  induction q with
  | nil => intro i j a b _ hi _; simp at hi
  | cons x t ih =>
    intro i j a b hij hi hj
    match i, j with
    | 0, 0 => exact absurd rfl hij
    | 0, j + 1 =>
      simp only [List.get?] at hi
      injection hi with hi
      subst hi
      simp only [List.get?] at hj
      simp only [List.set]
      exact cons_set_perm x t j b hj
    | i + 1, 0 =>
      simp only [List.get?] at hj
      injection hj with hj
      subst hj
      simp only [List.get?] at hi
      simp only [List.set]
      exact cons_set_perm x t i a hi
    | i + 1, j + 1 =>
      simp only [List.get?] at hi hj
      simp only [List.set]
      exact List.Perm.cons x (ih i j a b (by omega) hi hj)

theorem bubbleF_perm :
    ∀ (fuel : Nat) (q : List (HQV T)) (index : Nat) (v : HQV T),
      q.get? index = some v → List.Perm (bubbleF fuel q index v) q := by
  intro fuel
  induction fuel with
  | zero => intro q index v _; exact List.Perm.refl q
  | succ fuel ih =>
    intro q index v hv
    simp only [bubbleF]
    by_cases h0 : index = 0
    · simp only [if_pos h0]; exact List.Perm.refl q
    · simp only [if_neg h0]
      cases hp : q.get? ((index - 1) / 2) with
      | none => exact List.Perm.refl q
      | some p =>
        by_cases hc : bubbleCond v p = true
        · simp only [if_pos hc]
          have hlv := nth_some_lt hv
          have hlp := nth_some_lt hp
          have hne : (index - 1) / 2 ≠ index := by omega
          have hv' : ((q.set ((index - 1) / 2) v).set index p).get? ((index - 1) / 2) =
              some v := by
            rw [nth_swap v p hne hlp hlv, if_neg hne, if_pos rfl]
          exact (ih _ _ v hv').trans (set_set_perm q ((index - 1) / 2) index p v hne hp hv)
        · simp only [if_neg hc]; exact List.Perm.refl q

theorem bubble_perm (q : List (HQV T)) (index : Nat) (v : HQV T)
    (hv : q.get? index = some v) : List.Perm (bubble q index v) q :=
  bubbleF_perm index q index v hv

theorem sinkF_perm :
    ∀ (fuel : Nat) (q : List (HQV T)) (index : Nat) (v : HQV T),
      q.get? index = some v → List.Perm (sinkF fuel q index v) q := by
  intro fuel
  induction fuel with
  | zero => intro q index v _; exact List.Perm.refl q
  | succ fuel ih =>
    intro q index v hv
    have hlv := nth_some_lt hv
    simp only [sinkF]
    cases h1 : q.get? (2 * index + 1) with
    | none => exact List.Perm.refl q
    | some c =>
      have hl1 := nth_some_lt h1
      have hne1 : 2 * index + 1 ≠ index := by omega
      have hswap1 : ((q.set (2 * index + 1) v).set index c).get? (2 * index + 1) =
          some v := by
        rw [nth_swap v c hne1 hl1 hlv, if_neg hne1, if_pos rfl]
      have perm1 : List.Perm (sinkF fuel ((q.set (2 * index + 1) v).set index c)
          (2 * index + 1) v) q :=
        (ih _ _ v hswap1).trans (set_set_perm q (2 * index + 1) index c v hne1 h1 hv)
      cases h2 : q.get? (2 * index + 2) with
      | some c2 =>
        have hl2 := nth_some_lt h2
        have hne2 : 2 * index + 2 ≠ index := by omega
        by_cases hs : (sinkSel c2 c && sinkSwapCond v c2) = true
        · simp only [if_pos hs]
          have hswap2 : ((q.set (2 * index + 2) v).set index c2).get? (2 * index + 2) =
              some v := by
            rw [nth_swap v c2 hne2 hl2 hlv, if_neg hne2, if_pos rfl]
          exact (ih _ _ v hswap2).trans (set_set_perm q (2 * index + 2) index c2 v hne2 h2 hv)
        · simp only [if_neg hs]
          by_cases hw : sinkSwapCond v c = true
          · simp only [if_pos hw]; exact perm1
          · simp only [if_neg hw]; exact bubble_perm q index v hv
      | none =>
        by_cases hw : sinkSwapCond v c = true
        · simp only [if_pos hw]; exact perm1
        · simp only [if_neg hw]; exact bubble_perm q index v hv

theorem sink_perm (q : List (HQV T)) (index : Nat) (v : HQV T)
    (hv : q.get? index = some v) : List.Perm (sink q index v) q :=
  sinkF_perm _ q index v hv

theorem heappush_perm (q : HeapQueue T) (p : ℚ) (t : T) :
    List.Perm (heappush q p t).queue (q.queue ++ [⟨p, q.counter, t⟩]) := by
  unfold heappush
  exact bubble_perm _ _ _ (List.get?_concat_length _ _)

theorem heappop_fst (q : HeapQueue T) (v : HQV T) (tl : List (HQV T))
    (hq : q.queue = v :: tl) : (heappop q).1 = some v.task := by
  unfold heappop
  simp only [hq]

theorem heappop_perm (q : HeapQueue T) (v : HQV T) (tl : List (HQV T))
    (hq : q.queue = v :: tl) :
    List.Perm (v :: (heappop q).2.queue) q.queue := by
  unfold heappop
  simp only [hq]
  cases tl with
  | nil => simp
  | cons w tw =>
    have hlen : (v :: w :: tw).length > 1 := by simp
    have hne : (v :: w :: tw) ≠ [] := by simp
    rw [List.getLast?_eq_getLast _ hne]
    simp only [if_pos hlen]
    set n := (v :: w :: tw).getLast hne with hn
    set rest := (v :: w :: tw).dropLast with hrest
    have hrest0 : rest.get? 0 = some v := by
      rw [hrest]
      simp [List.dropLast]
    have hrestlen : 0 < rest.length := by
      rw [hrest]
      simp [List.dropLast]
    have hq20 : (rest.set 0 n).get? 0 = some n :=
      List.get?_set_eq_of_lt _ hrestlen
    have hsink : List.Perm (sink (rest.set 0 n) 0 n) (rest.set 0 n) :=
      sink_perm _ 0 n hq20
    have hback : rest ++ [n] = v :: w :: tw := List.dropLast_append_getLast hne
    have h3 : List.Perm (n :: rest) (rest ++ [n]) :=
      (List.perm_append_singleton n rest).symm
    exact hback ▸ ((List.Perm.cons v hsink).trans
      ((cons_set_perm n rest 0 v hrest0).trans h3))

/-! ### The sift-up pass restores the heap property -/

theorem bubbleF_heapProp :
    ∀ (fuel : Nat) (q : List (HQV T)) (k : Nat) (v : HQV T),
      k ≤ fuel → heapExceptAt q k → parentDomChildren q k → q.get? k = some v →
      heapProp (bubbleF fuel q k v) := by
  intro fuel
  induction fuel with
  | zero =>
    intro q k v hk hAH hAux hv
    have hk0 : k = 0 := by omega
    subst hk0
    intro i j a b hch hia hjb
    exact hAH i j a b hch (by rcases isChild_bounds hch with ⟨_, _, h⟩; omega) hia hjb
  | succ fuel ih =>
    intro q k v hk hAH hAux hv
    simp only [bubbleF]
    by_cases h0 : k = 0
    · simp only [if_pos h0]
      subst h0
      intro i j a b hch hia hjb
      exact hAH i j a b hch (by rcases isChild_bounds hch with ⟨_, _, h⟩; omega) hia hjb
    · simp only [if_neg h0]
      have hklen := nth_some_lt hv
      have hparlt : (k - 1) / 2 < k := by omega
      cases hp : q.get? ((k - 1) / 2) with
      | none => exact absurd (List.get?_eq_none.1 hp) (by omega)
      | some p =>
        by_cases hc : bubbleCond v p = true
        · simp only [if_pos hc]
          have hparlen : (k - 1) / 2 < q.length := by omega
          have hne : (k - 1) / 2 ≠ k := by omega
          have hread := nth_swap v p hne hparlen hklen
          have hvp := bubbleCond_le hc
          apply ih _ _ v (by omega) ?hah ?haux ?hv
          case hv => rw [hread, if_neg hne, if_pos rfl]
          case hah =>
            intro i j a b hch hjne hia hjb
            rw [hread] at hia hjb
            rcases isChild_bounds hch with ⟨hij_eq, hij_lt, hj1⟩
            by_cases hjk : j = k
            · subst hjk
              rw [if_pos rfl] at hjb
              injection hjb with hjb
              subst hjb
              rw [if_neg (by omega), if_pos hij_eq] at hia
              injection hia with hia
              subst hia
              exact hvp
            · rw [if_neg hjk, if_neg hjne] at hjb
              by_cases hik : i = k
              · subst hik
                rw [if_pos rfl] at hia
                injection hia with hia
                subst hia
                exact hAux j _ b h0 hch hp hjb
              · by_cases hipar : i = (k - 1) / 2
                · rw [if_neg hik, if_pos hipar] at hia
                  injection hia with hia
                  subst hia
                  subst hipar
                  exact le_trans hvp (hAH _ j p b hch hjk hp hjb)
                · rw [if_neg hik, if_neg hipar] at hia
                  exact hAH i j a b hch hjk hia hjb
          case haux =>
            intro j p' c hpar0 hch hp' hc'
            rcases isChild_bounds hch with ⟨hj_eq, hj_lt, hj1⟩
            rw [hread] at hp' hc'
            rw [if_neg (by omega : ¬(((k - 1) / 2 - 1) / 2 = k)),
              if_neg (by omega : ¬(((k - 1) / 2 - 1) / 2 = (k - 1) / 2))] at hp'
            have hgp_child : isChild (((k - 1) / 2 - 1) / 2) ((k - 1) / 2) :=
              isChild_parent (by omega)
            have hgp_le_p : p'.priority ≤ p.priority :=
              hAH _ _ p' p hgp_child (by omega) hp' hp
            by_cases hjk : j = k
            · subst hjk
              rw [if_pos rfl] at hc'
              injection hc' with hc'
              subst hc'
              exact hgp_le_p
            · rw [if_neg hjk, if_neg (by omega : ¬(j = (k - 1) / 2))] at hc'
              exact le_trans hgp_le_p (hAH _ j p c hch hjk hp hc')
        · simp only [if_neg hc]
          have hcf : bubbleCond v p = false := by simpa using hc
          intro i j a b hch hia hjb
          by_cases hjk : j = k
          · subst hjk
            rcases isChild_bounds hch with ⟨hi_eq, _, _⟩
            rw [hi_eq, hp] at hia
            injection hia with hia
            subst hia
            rw [hv] at hjb
            injection hjb with hjb
            subst hjb
            exact bubbleCond_false_le hcf
          · exact hAH i j a b hch hjk hia hjb

/-! ### One sift-down swap re-establishes the sift-down invariants -/

theorem sink_swap_invariants (q : List (HQV T)) (k ch : Nat) (v cc : HQV T)
    (hch_is : isChild k ch) (hcc : q.get? ch = some cc) (hv : q.get? k = some v)
    (hSH : heapExceptUnder q k) (hAux : parentDomChildren q k)
    (hcc_le_v : cc.priority ≤ v.priority)
    (hcc_le_sib : ∀ s b, isChild k s → s ≠ ch → q.get? s = some b →
      cc.priority ≤ b.priority) :
    heapExceptUnder ((q.set ch v).set k cc) ch ∧
      parentDomChildren ((q.set ch v).set k cc) ch ∧
      ((q.set ch v).set k cc).get? ch = some v := by
  have hklen := nth_some_lt hv
  have hchlen := nth_some_lt hcc
  rcases isChild_bounds hch_is with ⟨hk_eq, hk_lt, hch1⟩
  have hne : ch ≠ k := by omega
  have hread := nth_swap v cc hne hchlen hklen
  refine ⟨?_, ?_, ?_⟩
  · -- heapExceptUnder at ch
    intro i j a b hch2 hine hia hjb
    rw [hread] at hia hjb
    rcases isChild_bounds hch2 with ⟨hij_eq, hij_lt, hj1⟩
    by_cases hik : i = k
    · rw [if_pos hik] at hia
      injection hia with hia
      subst hia
      by_cases hjch : j = ch
      · rw [if_neg (by omega : ¬(j = k)), if_pos hjch] at hjb
        injection hjb with hjb
        subst hjb
        exact hcc_le_v
      · rw [if_neg (by omega : ¬(j = k)), if_neg hjch] at hjb
        exact hcc_le_sib j b (hik ▸ hch2) hjch hjb
    · by_cases hjk : j = k
      · rw [if_pos hjk] at hjb
        injection hjb with hjb
        subst hjb
        have hk0 : k ≠ 0 := by omega
        rw [if_neg hik, if_neg (by omega : ¬(i = ch))] at hia
        have hipar : i = (k - 1) / 2 := by omega
        rw [hipar] at hia
        exact hAux ch a cc hk0 hch_is hia hcc
      · by_cases hjch : j = ch
        · exact absurd (by omega : i = k) hik
        · rw [if_neg hjk, if_neg hjch] at hjb
          rw [if_neg hik, if_neg hine] at hia
          exact hSH i j a b hch2 hik hia hjb
  · -- parentDomChildren at ch
    intro j p' c' h0 hch2 hp' hc'
    rcases isChild_bounds hch2 with ⟨hj_eq, hj_lt, hj1⟩
    rw [hread] at hp' hc'
    rw [← hk_eq, if_pos rfl] at hp'
    injection hp' with hp'
    subst hp'
    rw [if_neg (by omega : ¬(j = k)), if_neg (by omega : ¬(j = ch))] at hc'
    exact hSH ch j cc c' hch2 hne hcc hc'
  · rw [hread, if_neg hne, if_pos rfl]

/-! ### The sift-down pass restores the heap property -/

theorem sinkF_heapProp :
    ∀ (fuel : Nat) (q : List (HQV T)) (k : Nat) (v : HQV T),
      q.length ≤ k + fuel → heapExceptUnder q k → parentDomChildren q k →
      q.get? k = some v → heapProp (sinkF fuel q k v) := by
  intro fuel
  induction fuel with
  | zero =>
    intro q k v hfuel hSH hAux hv
    exact absurd (nth_some_lt hv) (by omega)
  | succ fuel ih =>
    intro q k v hfuel hSH hAux hv
    have hklen := nth_some_lt hv
    simp only [sinkF]
    cases h1 : q.get? (2 * k + 1) with
    | none =>
      have hlen1 : q.length ≤ 2 * k + 1 := List.get?_eq_none.1 h1
      show heapProp q
      intro i j a b hch hia hjb
      by_cases hik : i = k
      · rcases hch with hj | hj <;>
          exact absurd (nth_some_lt hjb) (by omega)
      · exact hSH i j a b hch hik hia hjb
    | some c =>
      have hl1 := nth_some_lt h1
      -- the bubble fallback, given that v is below both present children
      have hbub : (∀ b', q.get? (2 * k + 1) = some b' → v.priority ≤ b'.priority) →
          (∀ b', q.get? (2 * k + 2) = some b' → v.priority ≤ b'.priority) →
          heapProp (bubble q k v) := by
        intro hc1 hc2
        apply bubbleF_heapProp k q k v (le_refl k) ?_ hAux hv
        intro i j a b hch hjne hia hjb
        by_cases hik : i = k
        · rw [hik, hv] at hia
          injection hia with hia
          subst hia
          rcases hch with hj | hj
          · have hjeq : j = 2 * k + 1 := by omega
            rw [hjeq] at hjb
            exact hc1 b hjb
          · have hjeq : j = 2 * k + 2 := by omega
            rw [hjeq] at hjb
            exact hc2 b hjb
        · exact hSH i j a b hch hik hia hjb
      -- the child-1 swap branch, parametrized by the comparison with child 2
      have hstep1 : sinkSwapCond v c = true →
          (∀ b', q.get? (2 * k + 2) = some b' → c.priority ≤ b'.priority) →
          heapProp (sinkF fuel ((q.set (2 * k + 1) v).set k c) (2 * k + 1) v) := by
        intro hw hsib
        have hch_is : isChild k (2 * k + 1) := Or.inl rfl
        have hinv := sink_swap_invariants q k (2 * k + 1) v c hch_is h1 hv hSH hAux
          (sinkSwapCond_le hw) ?sib
        case sib =>
          intro s b hs hsne hsb
          rcases hs with hs | hs
          · exact absurd hs hsne
          · rw [hs] at hsb
            exact hsib b hsb
        apply ih _ _ v ?_ hinv.1 hinv.2.1 hinv.2.2
        simp only [List.length_set]
        omega
      cases h2 : q.get? (2 * k + 2) with
      | some c2 =>
        have hl2 := nth_some_lt h2
        by_cases hs : (sinkSel c2 c && sinkSwapCond v c2) = true
        · simp only [if_pos hs]
          rw [Bool.and_eq_true] at hs
          have hch_is : isChild k (2 * k + 2) := Or.inr rfl
          have hinv := sink_swap_invariants q k (2 * k + 2) v c2 hch_is h2 hv hSH hAux
            (sinkSwapCond_le hs.2) ?sib2
          case sib2 =>
            intro s b hs' hsne hsb
            rcases hs' with hs' | hs'
            · rw [hs', h1] at hsb
              injection hsb with hsb
              subst hsb
              exact sinkSel_le hs.1
            · exact absurd hs' hsne
          apply ih _ _ v ?_ hinv.1 hinv.2.1 hinv.2.2
          simp only [List.length_set]
          omega
        · simp only [if_neg hs]
          rw [Bool.and_eq_true] at hs
          by_cases hw : sinkSwapCond v c = true
          · simp only [if_pos hw]
            apply hstep1 hw
            intro b' hb'
            rw [h2] at hb'
            injection hb' with hb'
            subst hb'
            by_cases hsel : sinkSel c2 c = true
            · have hsw2 : sinkSwapCond v c2 = false := by
                by_cases h : sinkSwapCond v c2 = true
                · exact absurd ⟨hsel, h⟩ hs
                · simpa using h
              exact le_trans (sinkSwapCond_le hw) (sinkSwapCond_false_le hsw2)
            · exact sinkSel_false_le (by simpa using hsel)
          · simp only [if_neg hw]
            apply hbub
            · intro b' hb'
              rw [h1] at hb'
              injection hb' with hb'
              subst hb'
              exact sinkSwapCond_false_le (by simpa using hw)
            · intro b' hb'
              rw [h2] at hb'
              injection hb' with hb'
              subst hb'
              by_cases hsel : sinkSel c2 c = true
              · have hsw2 : sinkSwapCond v c2 = false := by
                  by_cases h : sinkSwapCond v c2 = true
                  · exact absurd ⟨hsel, h⟩ hs
                  · simpa using h
                exact sinkSwapCond_false_le hsw2
              · exact le_trans (sinkSwapCond_false_le (by simpa using hw))
                  (sinkSel_false_le (by simpa using hsel))
      | none =>
        by_cases hw : sinkSwapCond v c = true
        · simp only [if_pos hw]
          apply hstep1 hw
          intro b' hb'
          rw [h2] at hb'
          exact Option.noConfusion hb'
        · simp only [if_neg hw]
          apply hbub
          · intro b' hb'
            rw [h1] at hb'
            injection hb' with hb'
            subst hb'
            exact sinkSwapCond_false_le (by simpa using hw)
          · intro b' hb'
            rw [h2] at hb'
            exact Option.noConfusion hb'

/-! ### The public operations preserve the heap property -/

theorem heappush_heapProp (q : HeapQueue T) (p : ℚ) (t : T)
    (h : heapProp q.queue) : heapProp (heappush q p t).queue := by
  show heapProp (bubbleF q.queue.length (q.queue ++ [⟨p, q.counter, t⟩])
    q.queue.length ⟨p, q.counter, t⟩)
  apply bubbleF_heapProp _ _ _ _ (le_refl _) ?_ ?_ (List.get?_concat_length _ _)
  · intro i j a b hch hjne hia hjb
    have hjlen := nth_some_lt hjb
    rcases isChild_bounds hch with ⟨_, hij, _⟩
    rw [List.length_append] at hjlen
    have hjlt : j < q.queue.length := by simp at hjlen; omega
    rw [List.get?_append (by omega)] at hia
    rw [List.get?_append hjlt] at hjb
    exact h i j a b hch hia hjb
  · intro j p' c h0 hch hp' hc'
    have hjlen := nth_some_lt hc'
    rcases hch with hj | hj <;>
      (rw [List.length_append] at hjlen; simp at hjlen; omega)

theorem heappop_heapProp (q : HeapQueue T) (h : heapProp q.queue) :
    heapProp (heappop q).2.queue := by
  unfold heappop
  cases hq : q.queue with
  | nil => exact h
  | cons v tl =>
    cases tl with
    | nil =>
      simp only [List.length_cons, List.length_nil]
      intro i j a b hch hia hjb
      simp [List.dropLast] at hia
    | cons w tw =>
      have hlen : (v :: w :: tw).length > 1 := by simp
      have hne : (v :: w :: tw) ≠ [] := by simp
      rw [List.getLast?_eq_getLast _ hne]
      simp only [if_pos hlen]
      set n := (v :: w :: tw).getLast hne with hn
      set rest := (v :: w :: tw).dropLast with hrest
      have hrestlen : rest.length = tw.length + 1 := by
        rw [hrest, List.dropLast_eq_take]
        simp
      have hq20 : (rest.set 0 n).get? 0 = some n :=
        List.get?_set_eq_of_lt _ (by omega)
      show heapProp (sinkF ((rest.set 0 n).length - 0) (rest.set 0 n) 0 n)
      apply sinkF_heapProp _ _ _ _ (by omega) ?_ ?_ hq20
      · intro i j a b hch hine hia hjb
        rcases isChild_bounds hch with ⟨_, hij, _⟩
        have hjlen := nth_some_lt hjb
        rw [List.length_set] at hjlen
        rw [List.get?_set_ne _ _ (by omega : (0 : Nat) ≠ i)] at hia
        rw [List.get?_set_ne _ _ (by omega : (0 : Nat) ≠ j)] at hjb
        rw [hrest, List.dropLast_eq_take] at hia hjb hjlen
        rw [List.length_take] at hjlen
        have hlen3 : (v :: w :: tw).length = tw.length + 2 := by simp
        rw [List.get?_take (by omega)] at hjb
        rw [List.get?_take (by omega)] at hia
        have h' := h
        rw [hq] at h'
        exact h' i j a b hch hia hjb
      · intro j p' c h0 hch hp' hc'
        exact absurd rfl h0

/-! ### The root of a heap is minimal -/

theorem heapProp_root_min (q : List (HQV T)) (h : heapProp q) (r : HQV T)
    (hr : q.get? 0 = some r) :
    ∀ i a, q.get? i = some a → r.priority ≤ a.priority := by
  intro i
  induction i using Nat.strong_induction_on with
  | _ i ih =>
    intro a ha
    by_cases h0 : i = 0
    · subst h0
      rw [hr] at ha
      injection ha with ha
      subst ha
      exact le_refl _
    · have hpar := isChild_parent (j := i) (by omega)
      have hparlt : (i - 1) / 2 < i := by omega
      have hilen := nth_some_lt ha
      obtain ⟨b, hb⟩ : ∃ b, q.get? ((i - 1) / 2) = some b := by
        cases hx : q.get? ((i - 1) / 2) with
        | none => exact absurd (List.get?_eq_none.1 hx) (by omega)
        | some b => exact ⟨b, rfl⟩
      exact le_trans (ih _ hparlt b hb) (h _ i b a hpar hb ha)

/-! ### Popping everything yields the priorities in sorted order -/

theorem heappop_length (q : HeapQueue T) (v : HQV T) (tl : List (HQV T))
    (hq : q.queue = v :: tl) : (heappop q).2.queue.length = tl.length := by
  have hp := (heappop_perm q v tl hq).length_eq
  rw [hq] at hp
  simp at hp
  omega

theorem heappop_empty (q : HeapQueue T) (hq : q.queue = []) : heappop q = (none, q) := by
  unfold heappop
  rw [hq]

theorem popAllAux_mem :
    ∀ (fuel : Nat) (q : HeapQueue T) (b : T),
      b ∈ popAllAux fuel q → ∃ x ∈ q.queue, x.task = b := by
  intro fuel
  induction fuel with
  | zero => intro q b hb; simp [popAllAux] at hb
  | succ fuel ih =>
    intro q b hb
    simp only [popAllAux] at hb
    cases hq : q.queue with
    | nil =>
      rw [heappop_empty q hq] at hb
      simp at hb
    | cons v tl =>
      rcases hpop : heappop q with ⟨ot, q2⟩
      have hfst := heappop_fst q v tl hq
      rw [hpop] at hfst
      subst hfst
      rw [hpop] at hb
      rcases List.mem_cons.1 hb with hb1 | hb2
      · exact ⟨v, List.mem_cons_self v tl, hb1.symm⟩
      · obtain ⟨x, hx, ht⟩ := ih q2 b hb2
        have hperm := heappop_perm q v tl hq
        rw [hpop] at hperm
        have hxq := hperm.mem_iff.1 (List.mem_cons_of_mem v hx)
        rw [hq] at hxq
        exact ⟨x, hxq, ht⟩

theorem popAllAux_sorted {S : Type} :
    ∀ (fuel : Nat) (q : HeapQueue (ℚ × S)), q.queue.length ≤ fuel →
      heapProp q.queue → (∀ x ∈ q.queue, x.task.1 = x.priority) →
      List.Sorted (fun a b => a.1 ≤ b.1) (popAllAux fuel q) := by
  intro fuel
  induction fuel with
  | zero => intro q _ _ _; exact List.sorted_nil
  | succ fuel ih =>
    intro q hlen hheap htag
    simp only [popAllAux]
    cases hq : q.queue with
    | nil =>
      rw [heappop_empty q hq]
      exact List.sorted_nil
    | cons v tl =>
      rcases hpop : heappop q with ⟨ot, q2⟩
      have hfst := heappop_fst q v tl hq
      rw [hpop] at hfst
      subst hfst
      have hperm := heappop_perm q v tl hq
      rw [hpop] at hperm
      have hheap2 : heapProp q2.queue := by
        have hh := heappop_heapProp q hheap
        rw [hpop] at hh
        exact hh
      have hlen2 : q2.queue.length ≤ fuel := by
        have hl := heappop_length q v tl hq
        rw [hpop] at hl
        simp only at hl
        rw [hq] at hlen
        simp at hlen
        omega
      have hsub : ∀ x, x ∈ q2.queue → x ∈ q.queue := fun x hx =>
        hperm.mem_iff.1 (List.mem_cons_of_mem v hx)
      have htag2 : ∀ x ∈ q2.queue, x.task.1 = x.priority := fun x hx =>
        htag x (hsub x hx)
      rw [List.sorted_cons]
      refine ⟨?_, ih q2 hlen2 hheap2 htag2⟩
      intro b hb
      obtain ⟨x, hxmem, hxtask⟩ := popAllAux_mem fuel q2 b hb
      have hxq : x ∈ q.queue := hsub x hxmem
      obtain ⟨i0, hi0⟩ := List.mem_iff_get?.1 hxq
      have hroot : q.queue.get? 0 = some v := by rw [hq]; rfl
      have hle := heapProp_root_min q.queue hheap v hroot i0 x hi0
      have htv : v.task.1 = v.priority :=
        htag v (by rw [hq]; exact List.mem_cons_self v tl)
      have htx : x.task.1 = x.priority := htag x hxq
      rw [← hxtask, htv, htx]
      exact hle

theorem pushList_heapProp {S : Type} :
    ∀ (ps : List (ℚ × S)) (q : HeapQueue S), heapProp q.queue →
      heapProp (pushList q ps).queue := by
  intro ps
  induction ps with
  | nil => intro q h; exact h
  | cons pt rest ih =>
    intro q h
    exact ih (heappush q pt.1 pt.2) (heappush_heapProp q pt.1 pt.2 h)

theorem pushList_tag {S : Type} :
    ∀ (ps : List (ℚ × (ℚ × S))), (∀ pt ∈ ps, pt.2.1 = pt.1) →
      ∀ (q : HeapQueue (ℚ × S)), (∀ x ∈ q.queue, x.task.1 = x.priority) →
      ∀ x ∈ (pushList q ps).queue, x.task.1 = x.priority := by
  intro ps
  induction ps with
  | nil => intro _ q hq x hx; exact hq x hx
  | cons pt rest ih =>
    intro hps q hq
    apply ih (fun pt' hpt' => hps pt' (List.mem_cons_of_mem pt hpt'))
    intro x hx
    have hmem := (heappush_perm q pt.1 pt.2).mem_iff.1 hx
    rcases List.mem_append.1 hmem with hold | hnew
    · exact hq x hold
    · simp at hnew
      subst hnew
      exact hps pt (List.mem_cons_self pt rest)

/-- **C1.**  For every sequence of `heappush` calls followed by repeated
`heappop` calls until the queue is empty, the priorities of the returned tasks
form a non-decreasing sequence.  Each pushed task is tagged with its own
priority so that the popped priorities are observable. -/
theorem heapqueue_pop_priorities_sorted {S : Type} (ps : List (ℚ × S)) :
    List.Sorted (fun a b => a.1 ≤ b.1)
      (popAll (pushList HeapQueue.empty (ps.map fun pt => (pt.1, (pt.1, pt.2))))) := by
  apply popAllAux_sorted _ _ (le_refl _)
  · apply pushList_heapProp
    intro i j a b _ hia _
    simp [HeapQueue.empty] at hia
  · apply pushList_tag
    · intro pt hpt
      rcases List.mem_map.1 hpt with ⟨y, _, hy⟩
      rw [← hy]
    · intro x hx
      simp [HeapQueue.empty] at hx

/-- **C2.**  Three tasks pushed with the same priority `0` (insertion counters
`0`, `1`, `2`, tasks labelled by insertion order) are popped in the order
`0, 2, 1` — not in insertion order `0, 1, 2`: `_sink`'s inverted tie-break
(`v.counter < c.counter`) demotes the earlier-inserted element below the
later one. -/
theorem heapqueue_tie_pop_order :
    popAll (pushList (HeapQueue.empty (T := Nat)) [(0, 0), (0, 1), (0, 2)]) = [0, 2, 1] ∧
      [0, 2, 1] ≠ [0, 1, 2] := by
  constructor
  · decide
  · decide

/-! ### Queue-content lemmas for the solver -/

theorem heappush_task_mem {q : HeapQueue T} {p : ℚ} {t : T} {x : HQV T}
    (hx : x ∈ (heappush q p t).queue) : x ∈ q.queue ∨ x = ⟨p, q.counter, t⟩ := by
  have hmem := (heappush_perm q p t).mem_iff.1 hx
  rcases List.mem_append.1 hmem with hold | hnew
  · exact Or.inl hold
  · simp at hnew
    exact Or.inr hnew

theorem heappop_none (q : HeapQueue T) (q' : HeapQueue T)
    (h : heappop q = (none, q')) : q' = q := by
  cases hq : q.queue with
  | nil => rw [heappop_empty q hq] at h; injection h with _ h2; exact h2.symm
  | cons v tl =>
    have h1 := heappop_fst q v tl hq
    rw [h] at h1
    exact absurd h1 (by simp)

theorem heappop_some_mem (q : HeapQueue T) (t : T) (q' : HeapQueue T)
    (h : heappop q = (some t, q')) : ∃ x ∈ q.queue, x.task = t := by
  cases hq : q.queue with
  | nil =>
    rw [heappop_empty q hq] at h
    injection h with h1
    exact absurd h1 (by simp)
  | cons v tl =>
    have h1 := heappop_fst q v tl hq
    rw [h] at h1
    injection h1 with h1
    exact ⟨v, List.mem_cons_self v tl, h1.symm⟩

theorem heappop_some_sub (q : HeapQueue T) (t : T) (q' : HeapQueue T)
    (h : heappop q = (some t, q')) : ∀ y ∈ q'.queue, y ∈ q.queue := by
  cases hq : q.queue with
  | nil =>
    rw [heappop_empty q hq] at h
    injection h with h1
    exact absurd h1 (by simp)
  | cons v tl =>
    intro y hy
    have hperm := heappop_perm q v tl hq
    rw [h] at hperm
    have hyq := hperm.mem_iff.1 (List.mem_cons_of_mem v hy)
    rw [hq] at hyq
    exact hyq

section SolverProofs

variable {State Twist Key : Type} [DecidableEq Key]

theorem processAction_shape (api : CubeAPI State Twist Key) (v : SNode State Twist)
    (visited : List (Key × Nat)) (action : Twist) (vis' : List (Key × Nat))
    (s : State) (ans : List Twist)
    (h : processAction api v visited action = (vis', some (s, ans))) :
    s = api.getNextStickerColors v.state action ∧ ans = v.answer ++ [action] := by
  unfold processAction at h
  cases hg : getVisited visited (api.fingerprint (api.getNextStickerColors v.state action)) with
  | none =>
    rw [hg] at h
    dsimp only at h
    injection h with _ h2
    injection h2 with h2
    injection h2 with h2a h2b
    exact ⟨h2a.symm, h2b.symm⟩
  | some prev =>
    rw [hg] at h
    dsimp only at h
    by_cases hlt : prev > (v.answer ++ [action]).length
    · rw [if_pos hlt] at h
      injection h with _ h2
      injection h2 with h2
      injection h2 with h2a h2b
      exact ⟨h2a.symm, h2b.symm⟩
    · rw [if_neg hlt] at h
      injection h with _ h2
      exact absurd h2.symm (by simp)

theorem processAction_good (api : CubeAPI State Twist Key) (init : State)
    (v : SNode State Twist) (visited : List (Key × Nat)) (action : Twist)
    (vis' : List (Key × Nat)) (s : State) (ans : List Twist)
    (hgood : goodNode api init v) (hact : action ∈ api.SINGLE_TWIST_LIST)
    (h : processAction api v visited action = (vis', some (s, ans))) :
    goodPair api init (s, ans) := by
  obtain ⟨hs, hans⟩ := processAction_shape api v visited action vis' s ans h
  subst hs
  subst hans
  constructor
  · intro t ht
    rcases List.mem_append.1 ht with hold | hnew
    · exact hgood.1 t hold
    · simp at hnew
      subst hnew
      exact hact
  · show applyMoves api init (v.answer ++ [action]) = _
    unfold applyMoves
    rw [List.foldl_append]
    have hst : applyMoves api init v.answer = v.state := hgood.2
    unfold applyMoves at hst
    rw [hst]
    rfl

theorem expandActions_go_good (api : CubeAPI State Twist Key) (init : State)
    (v : SNode State Twist) (hgood : goodNode api init v) :
    ∀ (acts : List Twist) (visited : List (Key × Nat)) (tr : STrace)
      (kept : List (State × List Twist)) (vis' : List (Key × Nat)) (tr' : STrace)
      (kept' : List (State × List Twist)),
      (∀ t ∈ acts, t ∈ api.SINGLE_TWIST_LIST) →
      (∀ sa ∈ kept, goodPair api init sa) →
      expandActions api v acts visited tr kept = .go vis' tr' kept' →
      ∀ sa ∈ kept', goodPair api init sa := by
  intro acts
  induction acts with
  | nil =>
    intro visited tr kept vis' tr' kept' _ hkept h
    simp only [expandActions] at h
    injection h with _ _ h3
    subst h3
    exact hkept
  | cons action acts ih =>
    intro visited tr kept vis' tr' kept' hacts hkept h
    simp only [expandActions] at h
    rcases hpa : processAction api v visited action with ⟨visited1, opt⟩
    rw [hpa] at h
    cases opt with
    | none =>
      exact ih visited1 tr kept vis' tr' kept'
        (fun t ht => hacts t (List.mem_cons_of_mem action ht)) hkept h
    | some sa =>
      rcases sa with ⟨next_state, next_answer⟩
      have hpg : goodPair api init (next_state, next_answer) :=
        processAction_good api init v visited action visited1 next_state next_answer
          hgood (hacts action (List.mem_cons_self action acts)) hpa
      simp only at h
      by_cases hgoal : api.MatchGoalState next_state = true
      · rw [if_pos hgoal] at h
        exact absurd h (by simp)
      · rw [if_neg hgoal] at h
        apply ih _ _ _ _ _ _ (fun t ht => hacts t (List.mem_cons_of_mem action ht)) ?_ h
        intro sa hsa
        rcases List.mem_append.1 hsa with hold | hnew
        · exact hkept sa hold
        · simp at hnew
          subst hnew
          exact hpg

theorem expandActions_found_good (api : CubeAPI State Twist Key) (init : State)
    (v : SNode State Twist) (hgood : goodNode api init v) :
    ∀ (acts : List Twist) (visited : List (Key × Nat)) (tr : STrace)
      (kept : List (State × List Twist)) (ans : List Twist)
      (vis' : List (Key × Nat)) (tr' : STrace),
      (∀ t ∈ acts, t ∈ api.SINGLE_TWIST_LIST) →
      expandActions api v acts visited tr kept = .found ans vis' tr' →
      (∀ t ∈ ans, t ∈ api.SINGLE_TWIST_LIST) ∧
        api.MatchGoalState (applyMoves api init ans) = true := by
  intro acts
  induction acts with
  | nil =>
    intro visited tr kept ans vis' tr' _ h
    simp only [expandActions] at h
    exact absurd h (by simp)
  | cons action acts ih =>
    intro visited tr kept ans vis' tr' hacts h
    simp only [expandActions] at h
    rcases hpa : processAction api v visited action with ⟨visited1, opt⟩
    rw [hpa] at h
    cases opt with
    | none =>
      exact ih visited1 tr kept ans vis' tr'
        (fun t ht => hacts t (List.mem_cons_of_mem action ht)) h
    | some sa =>
      rcases sa with ⟨next_state, next_answer⟩
      have hpg : goodPair api init (next_state, next_answer) :=
        processAction_good api init v visited action visited1 next_state next_answer
          hgood (hacts action (List.mem_cons_self action acts)) hpa
      simp only at h
      by_cases hgoal : api.MatchGoalState next_state = true
      · rw [if_pos hgoal] at h
        injection h with h1 _ _
        subst h1
        refine ⟨hpg.1, ?_⟩
        rw [hpg.2]
        exact hgoal
      · rw [if_neg hgoal] at h
        exact ih _ _ _ _ _ _ (fun t ht => hacts t (List.mem_cons_of_mem action ht)) h

theorem mem_msgsOfKept_pos {log : List (ℚ × Nat)} {d : ℚ}
    (h : d ∈ msgsOfKept log) : 0 < d := by
  unfold msgsOfKept at h
  rcases List.mem_filterMap.1 h with ⟨e, _, he⟩
  by_cases h0 : 0 < e.1
  · rw [if_pos h0] at he
    injection he with he
    subst he
    exact h0
  · rw [if_neg h0] at he
    exact Option.noConfusion he

theorem msgsOfKept_append (l1 l2 : List (ℚ × Nat)) :
    msgsOfKept (l1 ++ l2) = msgsOfKept l1 ++ msgsOfKept l2 :=
  List.filterMap_append l1 l2 _

/-- Fields of the trace that `expandActions` never modifies, plus the
progress-message bookkeeping: messages stay in lockstep with the kept log. -/
theorem expandActions_trace_spec (api : CubeAPI State Twist Key)
    (v : SNode State Twist) :
    ∀ (acts : List Twist) (visited : List (Key × Nat)) (tr : STrace)
      (kept : List (State × List Twist)),
      (expandActions api v acts visited tr kept).trace.scopeStarts = tr.scopeStarts ∧
      (expandActions api v acts visited tr kept).trace.scopeEnds = tr.scopeEnds ∧
      (expandActions api v acts visited tr kept).trace.disposes = tr.disposes ∧
      (expandActions api v acts visited tr kept).trace.modelLoads = tr.modelLoads ∧
      (expandActions api v acts visited tr kept).trace.predictCalls = tr.predictCalls ∧
      (expandActions api v acts visited tr kept).trace.roundsStarted = tr.roundsStarted ∧
      (expandActions api v acts visited tr kept).trace.popLog = tr.popLog ∧
      (tr.msgs = msgsOfKept tr.keptLog →
        (expandActions api v acts visited tr kept).trace.msgs =
          msgsOfKept (expandActions api v acts visited tr kept).trace.keptLog) := by
  intro acts
  induction acts with
  | nil =>
    intro visited tr kept
    exact ⟨rfl, rfl, rfl, rfl, rfl, rfl, rfl, fun h => h⟩
  | cons action acts ih =>
    intro visited tr kept
    simp only [expandActions]
    rcases hpa : processAction api v visited action with ⟨visited1, opt⟩
    cases opt with
    | none => exact ih visited1 tr kept
    | some sa =>
      rcases sa with ⟨next_state, next_answer⟩
      dsimp only
      by_cases hgoal : api.MatchGoalState next_state = true
      · rw [if_pos hgoal]
        refine ⟨rfl, rfl, rfl, rfl, rfl, rfl, rfl, ?_⟩
        intro h
        dsimp only [ExpandResult.trace]
        rw [h, msgsOfKept_append]
        congr 1
        unfold msgsOfKept
        rw [List.filterMap_cons]
        by_cases h0 : 0 < v.distance
        · rw [if_pos h0, if_pos h0]
          simp [List.filterMap_nil]
        · rw [if_neg h0, if_neg h0]
          simp [List.filterMap_nil]
      · rw [if_neg hgoal]
        have hrec := ih visited1
          { tr with
            msgs := tr.msgs ++ (if v.distance > 0 then [v.distance] else []),
            keptLog := tr.keptLog ++ [(v.distance, next_answer.length)] }
          (kept ++ [(next_state, next_answer)])
        refine ⟨hrec.1, hrec.2.1, hrec.2.2.1, hrec.2.2.2.1, hrec.2.2.2.2.1,
          hrec.2.2.2.2.2.1, hrec.2.2.2.2.2.2.1, ?_⟩
        intro h
        apply hrec.2.2.2.2.2.2.2
        dsimp only
        rw [h, msgsOfKept_append]
        congr 1
        unfold msgsOfKept
        rw [List.filterMap_cons]
        by_cases h0 : 0 < v.distance
        · rw [if_pos h0, if_pos h0]
          simp [List.filterMap_nil]
        · rw [if_neg h0, if_neg h0]
          simp [List.filterMap_nil]

/-- On the short-circuiting exit, the goal successor is the last entry of the
kept log, tagged with the expanded parent's distance. -/
theorem expandActions_found_last (api : CubeAPI State Twist Key)
    (v : SNode State Twist) :
    ∀ (acts : List Twist) (visited : List (Key × Nat)) (tr : STrace)
      (kept : List (State × List Twist)) (ans : List Twist)
      (vis' : List (Key × Nat)) (tr' : STrace),
      expandActions api v acts visited tr kept = .found ans vis' tr' →
      tr'.keptLog.getLast? = some (v.distance, ans.length) := by
  intro acts
  induction acts with
  | nil =>
    intro visited tr kept ans vis' tr' h
    simp only [expandActions] at h
    exact absurd h (by simp)
  | cons action acts ih =>
    intro visited tr kept ans vis' tr' h
    simp only [expandActions] at h
    rcases hpa : processAction api v visited action with ⟨visited1, opt⟩
    rw [hpa] at h
    cases opt with
    | none => exact ih visited1 tr kept ans vis' tr' h
    | some sa =>
      rcases sa with ⟨next_state, next_answer⟩
      simp only at h
      by_cases hgoal : api.MatchGoalState next_state = true
      · rw [if_pos hgoal] at h
        injection h with h1 _ h3
        subst h1
        rw [← h3]
        simp
      · rw [if_neg hgoal] at h
        exact ih _ _ _ _ _ _ h

/-- Trace fields `procPops` never modifies, plus the message lockstep. -/
theorem procPops_trace_spec (api : CubeAPI State Twist Key) :
    ∀ (range : Nat) (queue : HeapQueue (SNode State Twist))
      (visited : List (Key × Nat)) (tr : STrace) (kept : List (State × List Twist)),
      (procPops api range queue visited tr kept).trace.scopeStarts = tr.scopeStarts ∧
      (procPops api range queue visited tr kept).trace.scopeEnds = tr.scopeEnds ∧
      (procPops api range queue visited tr kept).trace.disposes = tr.disposes ∧
      (procPops api range queue visited tr kept).trace.modelLoads = tr.modelLoads ∧
      (procPops api range queue visited tr kept).trace.predictCalls = tr.predictCalls ∧
      (procPops api range queue visited tr kept).trace.roundsStarted = tr.roundsStarted ∧
      (tr.msgs = msgsOfKept tr.keptLog →
        (procPops api range queue visited tr kept).trace.msgs =
          msgsOfKept (procPops api range queue visited tr kept).trace.keptLog) := by
  intro range
  induction range with
  | zero =>
    intro queue visited tr kept
    exact ⟨rfl, rfl, rfl, rfl, rfl, rfl, fun h => h⟩
  | succ range ih =>
    intro queue visited tr kept
    simp only [procPops]
    rcases hpop : heappop queue with ⟨ot, queue'⟩
    cases ot with
    | none => exact ih queue' visited tr kept
    | some v =>
      dsimp only
      have hexp := expandActions_trace_spec api v api.SINGLE_TWIST_LIST visited
        { tr with popLog := tr.popLog ++
            [(v.answer.length, getVisited visited (api.fingerprint v.state))] } kept
      cases hex : expandActions api v api.SINGLE_TWIST_LIST visited
          { tr with popLog := tr.popLog ++
              [(v.answer.length, getVisited visited (api.fingerprint v.state))] } kept with
      | go vis2 tr2 kept2 =>
        rw [hex] at hexp
        simp only [ExpandResult.trace] at hexp
        have hrec := ih queue' vis2 tr2 kept2
        refine ⟨hrec.1.trans hexp.1, hrec.2.1.trans hexp.2.1,
          hrec.2.2.1.trans hexp.2.2.1, hrec.2.2.2.1.trans hexp.2.2.2.1,
          hrec.2.2.2.2.1.trans hexp.2.2.2.2.1,
          hrec.2.2.2.2.2.1.trans hexp.2.2.2.2.2.1, ?_⟩
        intro h
        exact hrec.2.2.2.2.2.2 (hexp.2.2.2.2.2.2.2 h)
      | found ans vis2 tr2 =>
        rw [hex] at hexp
        simp only [ExpandResult.trace] at hexp
        simp only [RoundResult.trace]
        exact ⟨hexp.1, hexp.2.1, hexp.2.2.1, hexp.2.2.2.1, hexp.2.2.2.2.1,
          hexp.2.2.2.2.2.1, fun h => hexp.2.2.2.2.2.2.2 h⟩

/-- On the short-circuiting exit of a round, the goal successor is the last
kept-log entry. -/
theorem procPops_found_last (api : CubeAPI State Twist Key) :
    ∀ (range : Nat) (queue : HeapQueue (SNode State Twist))
      (visited : List (Key × Nat)) (tr : STrace) (kept : List (State × List Twist))
      (ans : List Twist) (q' : HeapQueue (SNode State Twist))
      (vis' : List (Key × Nat)) (tr' : STrace),
      procPops api range queue visited tr kept = .found ans q' vis' tr' →
      ∃ d, tr'.keptLog.getLast? = some (d, ans.length) := by
  intro range
  induction range with
  | zero =>
    intro queue visited tr kept ans q' vis' tr' h
    simp only [procPops] at h
    exact absurd h (by simp)
  | succ range ih =>
    intro queue visited tr kept ans q' vis' tr' h
    simp only [procPops] at h
    rcases hpop : heappop queue with ⟨ot, queue'⟩
    rw [hpop] at h
    cases ot with
    | none => exact ih queue' visited tr kept ans q' vis' tr' h
    | some v =>
      dsimp only at h
      cases hex : expandActions api v api.SINGLE_TWIST_LIST visited
          { tr with popLog := tr.popLog ++
              [(v.answer.length, getVisited visited (api.fingerprint v.state))] } kept with
      | go vis2 tr2 kept2 =>
        rw [hex] at h
        exact ih queue' vis2 tr2 kept2 ans q' vis' tr' h
      | found ans2 vis2 tr2 =>
        rw [hex] at h
        injection h with h1 _ _ h4
        subst h1
        subst h4
        exact ⟨v.distance, expandActions_found_last api v _ _ _ _ _ _ _ hex⟩

/-- Soundness of the nodes and kept pairs across one round. -/
theorem procPops_completed_good (api : CubeAPI State Twist Key) (init : State) :
    ∀ (range : Nat) (queue : HeapQueue (SNode State Twist))
      (visited : List (Key × Nat)) (tr : STrace) (kept : List (State × List Twist))
      (q' : HeapQueue (SNode State Twist)) (vis' : List (Key × Nat)) (tr' : STrace)
      (kept' : List (State × List Twist)),
      (∀ x ∈ queue.queue, goodNode api init x.task) →
      (∀ sa ∈ kept, goodPair api init sa) →
      procPops api range queue visited tr kept = .completed q' vis' tr' kept' →
      (∀ x ∈ q'.queue, goodNode api init x.task) ∧
        (∀ sa ∈ kept', goodPair api init sa) := by
  intro range
  induction range with
  | zero =>
    intro queue visited tr kept q' vis' tr' kept' hqueue hkept h
    simp only [procPops] at h
    injection h with h1 _ _ h4
    subst h1
    subst h4
    exact ⟨hqueue, hkept⟩
  | succ range ih =>
    intro queue visited tr kept q' vis' tr' kept' hqueue hkept h
    simp only [procPops] at h
    rcases hpop : heappop queue with ⟨ot, queue'⟩
    rw [hpop] at h
    cases ot with
    | none =>
      have hq' : queue' = queue := heappop_none queue queue' hpop
      rw [hq'] at h
      exact ih queue visited tr kept q' vis' tr' kept' hqueue hkept h
    | some v =>
      dsimp only at h
      obtain ⟨x, hxmem, hxtask⟩ := heappop_some_mem queue v queue' hpop
      have hvgood : goodNode api init v := by
        have := hqueue x hxmem
        rwa [hxtask] at this
      have hq'good : ∀ y ∈ queue'.queue, goodNode api init y.task := fun y hy =>
        hqueue y (heappop_some_sub queue v queue' hpop y hy)
      cases hex : expandActions api v api.SINGLE_TWIST_LIST visited
          { tr with popLog := tr.popLog ++
              [(v.answer.length, getVisited visited (api.fingerprint v.state))] } kept with
      | go vis2 tr2 kept2 =>
        rw [hex] at h
        have hkept2 : ∀ sa ∈ kept2, goodPair api init sa :=
          expandActions_go_good api init v hvgood api.SINGLE_TWIST_LIST _ _ kept
            vis2 tr2 kept2 (fun t ht => ht) hkept hex
        exact ih queue' vis2 tr2 kept2 q' vis' tr' kept' hq'good hkept2 h
      | found ans2 vis2 tr2 =>
        rw [hex] at h
        exact absurd h (by simp)

/-- Soundness of a goal answer found inside a round. -/
theorem procPops_found_good (api : CubeAPI State Twist Key) (init : State) :
    ∀ (range : Nat) (queue : HeapQueue (SNode State Twist))
      (visited : List (Key × Nat)) (tr : STrace) (kept : List (State × List Twist))
      (ans : List Twist) (q' : HeapQueue (SNode State Twist))
      (vis' : List (Key × Nat)) (tr' : STrace),
      (∀ x ∈ queue.queue, goodNode api init x.task) →
      procPops api range queue visited tr kept = .found ans q' vis' tr' →
      (∀ t ∈ ans, t ∈ api.SINGLE_TWIST_LIST) ∧
        api.MatchGoalState (applyMoves api init ans) = true := by
  intro range
  induction range with
  | zero =>
    intro queue visited tr kept ans q' vis' tr' _ h
    simp only [procPops] at h
    exact absurd h (by simp)
  | succ range ih =>
    intro queue visited tr kept ans q' vis' tr' hqueue h
    simp only [procPops] at h
    rcases hpop : heappop queue with ⟨ot, queue'⟩
    rw [hpop] at h
    cases ot with
    | none =>
      have hq' : queue' = queue := heappop_none queue queue' hpop
      rw [hq'] at h
      exact ih queue visited tr kept ans q' vis' tr' hqueue h
    | some v =>
      dsimp only at h
      obtain ⟨x, hxmem, hxtask⟩ := heappop_some_mem queue v queue' hpop
      have hvgood : goodNode api init v := by
        have := hqueue x hxmem
        rwa [hxtask] at this
      have hq'good : ∀ y ∈ queue'.queue, goodNode api init y.task := fun y hy =>
        hqueue y (heappop_some_sub queue v queue' hpop y hy)
      cases hex : expandActions api v api.SINGLE_TWIST_LIST visited
          { tr with popLog := tr.popLog ++
              [(v.answer.length, getVisited visited (api.fingerprint v.state))] } kept with
      | go vis2 tr2 kept2 =>
        rw [hex] at h
        exact ih queue' vis2 tr2 kept2 ans q' vis' tr' hq'good h
      | found ans2 vis2 tr2 =>
        rw [hex] at h
        injection h with h1
        subst h1
        exact expandActions_found_good api init v hvgood api.SINGLE_TWIST_LIST
          _ _ kept ans2 vis2 tr2 (fun t ht => ht) hex

/-- Pushing the kept successors of a round preserves node soundness. -/
theorem pushKept_good (api : CubeAPI State Twist Key) (init : State) (l : ℚ) :
    ∀ (kept : List (State × List Twist)) (q : HeapQueue (SNode State Twist)),
      (∀ x ∈ q.queue, goodNode api init x.task) →
      (∀ sa ∈ kept, goodPair api init sa) →
      ∀ x ∈ (kept.foldl (fun qq sa =>
          heappush qq (l * (sa.2.length : ℚ) + api.predictOne sa.1)
            { distance := api.predictOne sa.1, state := sa.1, answer := sa.2 }) q).queue,
        goodNode api init x.task := by
  intro kept
  induction kept with
  | nil => intro q hq _ x hx; exact hq x hx
  | cons sa rest ih =>
    intro q hq hkept x hx
    simp only [List.foldl_cons] at hx
    apply ih _ ?_ (fun sb hsb => hkept sb (List.mem_cons_of_mem sa hsb)) x hx
    intro y hy
    rcases heappush_task_mem hy with hold | hnew
    · exact hq y hold
    · subst hnew
      exact hkept sa (List.mem_cons_self sa rest)

/-- Soundness of a goal answer returned by the round loop. -/
theorem solveLoop_goalFound_good (api : CubeAPI State Twist Key) (init : State)
    (b n : Nat) (l : ℚ) :
    ∀ (fuel : Nat) (queue : HeapQueue (SNode State Twist))
      (visited : List (Key × Nat)) (tr : STrace) (ans : List Twist) (tr' : STrace),
      (∀ x ∈ queue.queue, goodNode api init x.task) →
      solveLoop api b n l fuel queue visited tr = (.goalFound ans, tr') →
      (∀ t ∈ ans, t ∈ api.SINGLE_TWIST_LIST) ∧
        api.MatchGoalState (applyMoves api init ans) = true := by
  intro fuel
  induction fuel with
  | zero =>
    intro queue visited tr ans tr' _ h
    simp only [solveLoop] at h
    injection h with h1
    exact absurd h1 (by simp)
  | succ fuel ih =>
    intro queue visited tr ans tr' hqueue h
    simp only [solveLoop] at h
    by_cases hsz : queue.size = 0
    · rw [if_pos hsz] at h
      injection h with h1
      exact absurd h1 (by simp)
    · rw [if_neg hsz] at h
      cases hpp : procPops api (min n queue.size) queue visited
          { tr with roundsStarted := tr.roundsStarted + 1 } [] with
      | found ans2 q2 vis2 tr2 =>
        rw [hpp] at h
        injection h with h1
        injection h1 with h1
        subst h1
        exact procPops_found_good api init _ queue visited _ [] ans2 q2 vis2 tr2
          hqueue hpp
      | completed q2 vis2 tr2 kept2 =>
        rw [hpp] at h
        have hgood2 := procPops_completed_good api init _ queue visited _ [] q2
          vis2 tr2 kept2 hqueue (by intro sa hsa; simp at hsa) hpp
        exact ih _ vis2 _ ans tr'
          (pushKept_good api init l kept2 q2 hgood2.1 hgood2.2) h

/-- Trace bookkeeping of the round loop: scope starts and model loads are
never touched; messages stay in lockstep with the kept log; one predict call
per completed round (so a goal exit has one fewer predict call than started
rounds); the scope is ended exactly once on the goal-found and exhausted
exits and not at all when fuel runs out; the loop never reports
`alreadySolved`; and on a goal exit the answer is the last kept successor. -/
theorem solveLoop_spec (api : CubeAPI State Twist Key) (b n : Nat) (l : ℚ) :
    ∀ (fuel : Nat) (queue : HeapQueue (SNode State Twist))
      (visited : List (Key × Nat)) (tr : STrace) (o : SolveOutcome Twist) (tr' : STrace),
      solveLoop api b n l fuel queue visited tr = (o, tr') →
      tr'.scopeStarts = tr.scopeStarts ∧
      tr'.modelLoads = tr.modelLoads ∧
      (tr.msgs = msgsOfKept tr.keptLog → tr'.msgs = msgsOfKept tr'.keptLog) ∧
      (tr.predictCalls = tr.roundsStarted →
        ∀ a, o = .goalFound a → tr'.predictCalls + 1 = tr'.roundsStarted) ∧
      ((o = .exhausted ∨ ∃ a, o = .goalFound a) → tr'.scopeEnds = tr.scopeEnds + 1) ∧
      (o = .outOfFuel → tr'.scopeEnds = tr.scopeEnds) ∧
      o ≠ .alreadySolved ∧
      (∀ a, o = .goalFound a → ∃ d, tr'.keptLog.getLast? = some (d, a.length)) := by
  intro fuel
  induction fuel with
  | zero =>
    intro queue visited tr o tr' h
    simp only [solveLoop] at h
    injection h with h1 h2
    subst h2
    refine ⟨rfl, rfl, fun hm => hm, ?_, ?_, fun _ => rfl, ?_, ?_⟩
    · intro _ a ha
      rw [← h1] at ha
      exact absurd ha (by simp)
    · intro hcase
      rcases hcase with hc | ⟨a, hc⟩ <;>
        (rw [← h1] at hc; exact absurd hc (by simp))
    · rw [← h1]
      simp
    · intro a ha
      rw [← h1] at ha
      exact absurd ha (by simp)
  | succ fuel ih =>
    intro queue visited tr o tr' h
    simp only [solveLoop] at h
    by_cases hsz : queue.size = 0
    · rw [if_pos hsz] at h
      injection h with h1 h2
      subst h2
      refine ⟨rfl, rfl, fun hm => hm, ?_, ?_, ?_, ?_, ?_⟩
      · intro _ a ha
        rw [← h1] at ha
        exact absurd ha (by simp)
      · intro _
        rfl
      · intro hc
        rw [← h1] at hc
        exact absurd hc (by simp)
      · rw [← h1]
        simp
      · intro a ha
        rw [← h1] at ha
        exact absurd ha (by simp)
    · rw [if_neg hsz] at h
      have hpps := procPops_trace_spec api (min n queue.size) queue visited
        { tr with roundsStarted := tr.roundsStarted + 1 } []
      cases hpp : procPops api (min n queue.size) queue visited
          { tr with roundsStarted := tr.roundsStarted + 1 } [] with
      | found ans2 q2 vis2 tr2 =>
        rw [hpp] at h hpps
        simp only [RoundResult.trace] at hpps
        injection h with h1 h2
        subst h2
        have hlast := procPops_found_last api (min n queue.size) queue visited
          { tr with roundsStarted := tr.roundsStarted + 1 } [] ans2 q2 vis2 tr2 hpp
        refine ⟨hpps.1, hpps.2.2.2.1, ?_, ?_, ?_, ?_, ?_, ?_⟩
        · intro hm
          exact hpps.2.2.2.2.2.2 hm
        · intro hpred a ha
          rw [← h1] at ha
          injection ha with ha
          show tr2.predictCalls + 1 = tr2.roundsStarted
          rw [hpps.2.2.2.2.1, hpps.2.2.2.2.2.1]
          omega
        · intro _
          show tr2.scopeEnds + 1 = tr.scopeEnds + 1
          rw [hpps.2.1]
        · intro hc
          rw [← h1] at hc
          exact absurd hc (by simp)
        · rw [← h1]
          simp
        · intro a ha
          rw [← h1] at ha
          injection ha with ha
          subst ha
          exact hlast
      | completed q2 vis2 tr2 kept2 =>
        rw [hpp] at h hpps
        simp only [RoundResult.trace] at hpps
        have hrec := ih _ vis2 { tr2 with predictCalls := tr2.predictCalls + 1 } o tr' h
        refine ⟨hrec.1.trans hpps.1, hrec.2.1.trans hpps.2.2.2.1, ?_, ?_, ?_, ?_,
          hrec.2.2.2.2.2.2.1, hrec.2.2.2.2.2.2.2⟩
        · intro hm
          exact hrec.2.2.1 (hpps.2.2.2.2.2.2 hm)
        · intro hpred a ha
          apply hrec.2.2.2.1 ?_ a ha
          show tr2.predictCalls + 1 = tr2.roundsStarted
          rw [hpps.2.2.2.2.1, hpps.2.2.2.2.2.1]
          omega
        · intro hc
          have hstep := hrec.2.2.2.2.1 hc
          rw [hstep]
          show tr2.scopeEnds + 1 = tr.scopeEnds + 1
          rw [hpps.2.1]
        · intro hc
          have hstep := hrec.2.2.2.2.2.1 hc
          rw [hstep]
          exact hpps.2.1

theorem getVisited_set_self (vis : List (Key × Nat)) (k : Key) (nv : Nat) :
    getVisited (setVisited vis k nv) k = some nv := by
  induction vis with
  | nil => simp [setVisited, getVisited]
  | cons e rest ih =>
    rcases e with ⟨k', n'⟩
    by_cases hk : k' = k
    · simp [setVisited, getVisited, hk]
    · simp only [setVisited, getVisited, if_neg hk]
      exact ih

/-- The initial queue of a search is sound for its initial state. -/
theorem initial_queue_good (api : CubeAPI State Twist Key) (stickers : State) :
    ∀ x ∈ (heappush HeapQueue.empty 0
        ({ distance := 0, state := stickers, answer := [] } : SNode State Twist)).queue,
      goodNode api stickers x.task := by
  intro x hx
  rcases heappush_task_mem hx with h0 | h0
  · simp [HeapQueue.empty] at h0
  · subst h0
    exact ⟨by simp, rfl⟩

/-- Messages stay in lockstep with the kept-successor log over a whole run. -/
theorem solveFuel_msgs_eq (api : CubeAPI State Twist Key) (stickers : State)
    (b n : Nat) (l : ℚ) (fuel : Nat) :
    (solveFuel api stickers b n l fuel).2.msgs =
      msgsOfKept (solveFuel api stickers b n l fuel).2.keptLog := by
  unfold solveFuel
  by_cases hg : api.MatchGoalState stickers = true
  · rw [if_pos hg]
    rfl
  · rw [if_neg hg]
    exact (solveLoop_spec api b n l fuel
      (heappush HeapQueue.empty 0
          ({ distance := 0, state := stickers, answer := [] } : SNode State Twist))
        [(api.fingerprint stickers, 0)] { initTrace with modelLoads := 1 } _ _ rfl).2.2.1 rfl

end SolverProofs

/-! ### The solver claims -/

section SolverClaims

variable {State Twist Key : Type} [DecidableEq Key]

/-- **C3.**  If the search explores to a goal state (the run returns via the
goal-found exit), then the returned move sequence consists of legal moves
only, and folding the transition function over it from the initial state
yields a state satisfying the goal test.  Termination is expressed by the
run finishing within a finite number `fuel` of rounds. -/
theorem solve_goal_answer_sound (api : CubeAPI State Twist Key) (stickers : State)
    (b n : Nat) (l : ℚ) (fuel : Nat) (ans : List Twist)
    (h : (solveFuel api stickers b n l fuel).1 = .goalFound ans) :
    (∀ t ∈ ans, t ∈ api.SINGLE_TWIST_LIST) ∧
      api.MatchGoalState (applyMoves api stickers ans) = true := by
  unfold solveFuel at h
  by_cases hg : api.MatchGoalState stickers = true
  · rw [if_pos hg] at h
    exact absurd h (by simp)
  · rw [if_neg hg] at h
    have heq : solveLoop api b n l fuel
        (heappush HeapQueue.empty 0
          ({ distance := 0, state := stickers, answer := [] } : SNode State Twist))
        [(api.fingerprint stickers, 0)] { initTrace with modelLoads := 1 } =
        (.goalFound ans, (solveLoop api b n l fuel
          (heappush HeapQueue.empty 0
          ({ distance := 0, state := stickers, answer := [] } : SNode State Twist))
        [(api.fingerprint stickers, 0)] { initTrace with modelLoads := 1 }).2) := by
      rw [← h]
    exact solveLoop_goalFound_good api stickers b n l fuel _ _ _ ans _
      (initial_queue_good api stickers) heq

/-- Witness for C3: the toy search finds the goal path `[1]`, whose only
move is legal and which reaches the goal. -/
theorem solve_goal_answer_sound_witness :
    (∀ t ∈ [1], t ∈ apiGoalToy.SINGLE_TWIST_LIST) ∧
      apiGoalToy.MatchGoalState (applyMoves apiGoalToy 0 [1]) = true :=
  solve_goal_answer_sound apiGoalToy 0 100 150 (3 / 10) 1 [1] (by decide)

/-- **C9.**  When a kept successor satisfies the goal test, the whole search
returns at once: the final round issues no heuristic batch (one predict call
per completed round, none for the goal round), and the goal answer is the
last successor logged — nothing after it in its round is expanded. -/
theorem solve_goal_short_circuit (api : CubeAPI State Twist Key) (stickers : State)
    (b n : Nat) (l : ℚ) (fuel : Nat) (ans : List Twist)
    (h : (solveFuel api stickers b n l fuel).1 = .goalFound ans) :
    (solveFuel api stickers b n l fuel).2.predictCalls + 1 =
      (solveFuel api stickers b n l fuel).2.roundsStarted ∧
    ∃ d, (solveFuel api stickers b n l fuel).2.keptLog.getLast? =
      some (d, ans.length) := by
  unfold solveFuel at h ⊢
  by_cases hg : api.MatchGoalState stickers = true
  · rw [if_pos hg] at h
    exact absurd h (by simp)
  · rw [if_neg hg] at h ⊢
    have hs := solveLoop_spec api b n l fuel
      (heappush HeapQueue.empty 0
          ({ distance := 0, state := stickers, answer := [] } : SNode State Twist))
        [(api.fingerprint stickers, 0)] { initTrace with modelLoads := 1 } _ _ rfl
    exact ⟨hs.2.2.2.1 rfl ans h, hs.2.2.2.2.2.2.2 ans h⟩

/-- Witness for C9 at the toy goal search. -/
theorem solve_goal_short_circuit_witness :
    (solveFuel apiGoalToy 0 100 150 (3 / 10) 1).2.predictCalls + 1 =
      (solveFuel apiGoalToy 0 100 150 (3 / 10) 1).2.roundsStarted ∧
    ∃ d, (solveFuel apiGoalToy 0 100 150 (3 / 10) 1).2.keptLog.getLast? =
      some (d, ([1] : List Nat).length) :=
  solve_goal_short_circuit apiGoalToy 0 100 150 (3 / 10) 1 [1] (by decide)

/-- **C5 (amended).**  On the goal-found and frontier-exhausted exit paths
the evaluation scope is ended exactly once (started once, ended once, never
twice).  The already-solved early return, by contrast, starts the scope but
never ends it — see the counterexample. -/
theorem solve_scope_balanced (api : CubeAPI State Twist Key) (stickers : State)
    (b n : Nat) (l : ℚ) (fuel : Nat)
    (h : (solveFuel api stickers b n l fuel).1 = .exhausted ∨
      ∃ a, (solveFuel api stickers b n l fuel).1 = .goalFound a) :
    (solveFuel api stickers b n l fuel).2.scopeStarts = 1 ∧
      (solveFuel api stickers b n l fuel).2.scopeEnds = 1 := by
  unfold solveFuel at h ⊢
  by_cases hg : api.MatchGoalState stickers = true
  · rw [if_pos hg] at h
    rcases h with hc | ⟨a, hc⟩ <;> exact absurd hc (by simp)
  · rw [if_neg hg] at h ⊢
    have hs := solveLoop_spec api b n l fuel
      (heappush HeapQueue.empty 0
          ({ distance := 0, state := stickers, answer := [] } : SNode State Twist))
        [(api.fingerprint stickers, 0)] { initTrace with modelLoads := 1 } _ _ rfl
    exact ⟨hs.1, hs.2.2.2.2.1 h⟩

/-- Witness for C5 at the toy goal search. -/
theorem solve_scope_balanced_witness :
    (solveFuel apiGoalToy 0 100 150 (3 / 10) 1).2.scopeStarts = 1 ∧
      (solveFuel apiGoalToy 0 100 150 (3 / 10) 1).2.scopeEnds = 1 :=
  solve_scope_balanced apiGoalToy 0 100 150 (3 / 10) 1 (Or.inr ⟨[1], by decide⟩)

/-- Counterexample for C5 as stated: the already-solved early return
(lines 56-59) happens after `tf.engine().startScope()` (line 29) but before
any `endScope()`, so that exit path acquires the evaluation context and
never releases it. -/
theorem solve_scope_leak_on_already_solved :
    (solveFuel apiSolvedToy 0 100 150 (3 / 10) 5).1 = SolveOutcome.alreadySolved ∧
    (solveFuel apiSolvedToy 0 100 150 (3 / 10) 5).2.scopeStarts = 1 ∧
    (solveFuel apiSolvedToy 0 100 150 (3 / 10) 5).2.scopeEnds = 0 := by
  decide

/-- **C8.**  If the initial state already satisfies the goal test, `solve`
returns the empty move sequence immediately, with zero model loads and zero
predict calls (the model is loaded only after this check). -/
theorem solve_already_solved_no_oracle (api : CubeAPI State Twist Key)
    (stickers : State) (b n : Nat) (l : ℚ) (fuel : Nat)
    (h : api.MatchGoalState stickers = true) :
    (solveFuel api stickers b n l fuel).1 = .alreadySolved ∧
    (solveFuel api stickers b n l fuel).1.answerList = [] ∧
    (solveFuel api stickers b n l fuel).2.modelLoads = 0 ∧
    (solveFuel api stickers b n l fuel).2.predictCalls = 0 := by
  unfold solveFuel
  rw [if_pos h]
  exact ⟨rfl, rfl, rfl, rfl⟩

/-- Witness for C8 at the everything-is-a-goal toy. -/
theorem solve_already_solved_no_oracle_witness :
    (solveFuel apiSolvedToy 7 100 150 (3 / 10) 5).1 = .alreadySolved ∧
    (solveFuel apiSolvedToy 7 100 150 (3 / 10) 5).1.answerList = [] ∧
    (solveFuel apiSolvedToy 7 100 150 (3 / 10) 5).2.modelLoads = 0 ∧
    (solveFuel apiSolvedToy 7 100 150 (3 / 10) 5).2.predictCalls = 0 :=
  solve_already_solved_no_oracle apiSolvedToy 7 100 150 (3 / 10) 5 (by decide)

/-- **C4 (amended).**  Per generated successor: it is kept (yielded, with the
successor state and the extended path, and its fingerprint recorded at the
new path length) if and only if its fingerprint is absent from the ledger or
recorded with a path cost strictly greater than the new path length;
otherwise it is skipped and the ledger is unchanged.  Consequently a
fingerprint is only re-enqueued along a strictly shorter path — but a stale
queue entry for a state may still be re-expanded later (see the
counterexample). -/
theorem processAction_keep_iff (api : CubeAPI State Twist Key)
    (v : SNode State Twist) (visited : List (Key × Nat)) (action : Twist) :
    ((processAction api v visited action).2 ≠ none ↔
      getVisited visited (api.fingerprint (api.getNextStickerColors v.state action)) = none ∨
      ∃ c, getVisited visited (api.fingerprint (api.getNextStickerColors v.state action)) =
          some c ∧ v.answer.length + 1 < c) ∧
    ((processAction api v visited action).2 ≠ none →
      (processAction api v visited action).2 =
        some (api.getNextStickerColors v.state action, v.answer ++ [action]) ∧
      getVisited (processAction api v visited action).1
          (api.fingerprint (api.getNextStickerColors v.state action)) =
        some (v.answer.length + 1)) ∧
    ((processAction api v visited action).2 = none →
      (processAction api v visited action).1 = visited) := by
  have hlen : (v.answer ++ [action]).length = v.answer.length + 1 := by simp
  unfold processAction
  cases hg : getVisited visited (api.fingerprint (api.getNextStickerColors v.state action)) with
  | none =>
    dsimp only
    refine ⟨⟨fun _ => Or.inl rfl, fun _ => by simp⟩, fun _ => ⟨rfl, ?_⟩, fun habs => ?_⟩
    · rw [getVisited_set_self, hlen]
    · exact absurd habs (by simp)
  | some prev =>
    dsimp only
    by_cases hlt : prev > (v.answer ++ [action]).length
    · rw [if_pos hlt]
      refine ⟨⟨fun _ => Or.inr ⟨prev, rfl, by omega⟩, fun _ => by simp⟩,
        fun _ => ⟨rfl, ?_⟩, fun habs => ?_⟩
      · rw [getVisited_set_self, hlen]
      · exact absurd habs (by simp)
    · rw [if_neg hlt]
      refine ⟨⟨fun habs => absurd rfl habs, fun hc => ?_⟩, fun habs => absurd rfl habs,
        fun _ => rfl⟩
      rcases hc with hc | ⟨c, hc, hcl⟩
      · exact Option.noConfusion hc
      · injection hc with hc
        subst hc
        omega

/-- Witness for C4's amended per-successor rule at a concrete step: the root
node's successor `1` is new, hence kept and recorded at path length 1. -/
theorem processAction_keep_iff_witness :
    ((processAction apiGoalToy ⟨0, 0, []⟩ [(0, 0)] 1).2 ≠ none ↔
      getVisited [(0, 0)] (apiGoalToy.fingerprint (apiGoalToy.getNextStickerColors 0 1)) =
        none ∨
      ∃ c, getVisited [(0, 0)]
          (apiGoalToy.fingerprint (apiGoalToy.getNextStickerColors 0 1)) = some c ∧
        ([] : List Nat).length + 1 < c) ∧
    ((processAction apiGoalToy ⟨0, 0, []⟩ [(0, 0)] 1).2 ≠ none →
      (processAction apiGoalToy ⟨0, 0, []⟩ [(0, 0)] 1).2 =
        some (apiGoalToy.getNextStickerColors 0 1, [] ++ [1]) ∧
      getVisited (processAction apiGoalToy ⟨0, 0, []⟩ [(0, 0)] 1).1
          (apiGoalToy.fingerprint (apiGoalToy.getNextStickerColors 0 1)) =
        some (([] : List Nat).length + 1)) ∧
    ((processAction apiGoalToy ⟨0, 0, []⟩ [(0, 0)] 1).2 = none →
      (processAction apiGoalToy ⟨0, 0, []⟩ [(0, 0)] 1).1 = [(0, 0)]) :=
  processAction_keep_iff apiGoalToy ⟨0, 0, []⟩ [(0, 0)] 1

/-- Counterexample for C4 as stated: in the stale-re-expansion run the
sixth expansion pops state `5` with a path of length 3 while the ledger
already records path cost 2 for it — the state is re-expanded from a path
strictly longer than one already recorded. -/
theorem solver_stale_reexpansion :
    ((3 : Nat), (some 2 : Option Nat)) ∈
      (solveFuel apiStaleToy 0 100 1 1 6).2.popLog ∧ ¬((3 : Nat) ≤ 2) := by
  constructor
  · norm_num [solveFuel, solveLoop, procPops, expandActions, processAction,
      heappush, heappop, sink, sinkF, bubble, bubbleF, bubbleCond, sinkSel,
      sinkSwapCond, getVisited, setVisited, HeapQueue.empty, HeapQueue.size,
      initTrace, apiStaleToy, c4Next, c4Predict]
  · decide

/-- **C6 (amended).**  Frontier exhaustion is reported as an empty path, and
its terminal worker message `{distance: -1, answer: []}` is identical to the
terminal message of an already-solved run — there is no "not found" flag,
so the caller cannot distinguish the two outcomes. -/
theorem solve_exhausted_report (api : CubeAPI State Twist Key) (stickers : State)
    (b n : Nat) (l : ℚ) (fuel : Nat)
    (h : (solveFuel api stickers b n l fuel).1 = .exhausted) :
    (solveFuel api stickers b n l fuel).1.answerList = [] ∧
    (workerStream (solveFuel api stickers b n l fuel).1
        (solveFuel api stickers b n l fuel).2).getLast? =
      (workerStream (SolveOutcome.alreadySolved : SolveOutcome Twist)
        initTrace).getLast? := by
  constructor
  · rw [h]
    rfl
  · unfold workerStream
    rw [List.getLast?_concat, List.getLast?_concat, h]
    rfl

/-- Witness for C6 at the self-loop toy, whose frontier empties in one
round. -/
theorem solve_exhausted_report_witness :
    (solveFuel apiLoopToy 0 100 150 (3 / 10) 2).1.answerList = [] ∧
    (workerStream (solveFuel apiLoopToy 0 100 150 (3 / 10) 2).1
        (solveFuel apiLoopToy 0 100 150 (3 / 10) 2).2).getLast? =
      (workerStream (SolveOutcome.alreadySolved : SolveOutcome Nat)
        initTrace).getLast? :=
  solve_exhausted_report apiLoopToy 0 100 150 (3 / 10) 2 (by decide)

/-- Counterexample for C6 as stated: an already-solved run and a
frontier-exhausted run produce bitwise identical worker message streams
(`[{distance: -1, answer: []}]`) — no explicit "not found" flag exists, so
the two empty-path outcomes are indistinguishable to the caller. -/
theorem solver_no_notfound_flag :
    (solveFuel apiSolvedToy 0 100 150 (3 / 10) 2).1 = SolveOutcome.alreadySolved ∧
    (solveFuel apiLoopToy 0 100 150 (3 / 10) 2).1 = SolveOutcome.exhausted ∧
    workerStream (solveFuel apiSolvedToy 0 100 150 (3 / 10) 2).1
        (solveFuel apiSolvedToy 0 100 150 (3 / 10) 2).2 =
      workerStream (solveFuel apiLoopToy 0 100 150 (3 / 10) 2).1
        (solveFuel apiLoopToy 0 100 150 (3 / 10) 2).2 := by
  decide

/-- **C7 (amended).**  A progress message is posted per yielded successor
exactly when the expanded parent node's heuristic distance is strictly
positive, and it carries that parent distance — not whenever the successor's
path cost is positive (see the counterexample). -/
theorem solve_progress_iff_parent_distance_pos (api : CubeAPI State Twist Key)
    (stickers : State) (b n : Nat) (l : ℚ) (fuel : Nat) :
    (solveFuel api stickers b n l fuel).2.msgs =
      ((solveFuel api stickers b n l fuel).2.keptLog).filterMap
        (fun e => if 0 < e.1 then some e.1 else none) :=
  solveFuel_msgs_eq api stickers b n l fuel

/-- Counterexample for C7 as stated: the toy goal search yields a successor
with path cost `1 > 0` (a non-trivial path), yet posts no progress message,
because the expanded parent (the root) has heuristic distance `0`. -/
theorem solver_progress_missing_for_nontrivial_successor :
    (solveFuel apiGoalToy 0 100 150 (3 / 10) 1).2.keptLog = [(0, 1)] ∧
    (0 : Nat) < 1 ∧
    (solveFuel apiGoalToy 0 100 150 (3 / 10) 1).2.msgs = [] := by
  decide

/-- **C10.**  Over the worker message stream of any run, a message carries
`distance = -1` exactly when it is the terminal answer-carrying message:
progress messages are only posted with a strictly positive distance, so the
caller's dispatch on `distance === -1` never misclassifies. -/
theorem solver_message_dispatch (api : CubeAPI State Twist Key) (stickers : State)
    (b n : Nat) (l : ℚ) (fuel : Nat) :
    ∀ m ∈ workerStream (solveFuel api stickers b n l fuel).1
        (solveFuel api stickers b n l fuel).2,
      (m.distance = -1 ↔ m.answer ≠ none) := by
  intro m hm
  unfold workerStream at hm
  rcases List.mem_append.1 hm with hprog | hterm
  · rcases List.mem_map.1 hprog with ⟨d, hd, hmd⟩
    subst hmd
    have hpos : 0 < d := by
      rw [solveFuel_msgs_eq api stickers b n l fuel] at hd
      exact mem_msgsOfKept_pos hd
    constructor
    · intro habs
      simp only at habs
      rw [habs] at hpos
      exact absurd hpos (by norm_num)
    · intro habs
      simp at habs
  · simp only [List.mem_singleton] at hterm
    subst hterm
    constructor
    · intro _
      simp
    · intro _
      rfl

/-- Witness for C10 at the terminal message of the toy goal search. -/
theorem solver_message_dispatch_witness :
    (({ distance := -1, answer := some [1] } : SolverMessage Nat).distance = -1 ↔
      ({ distance := -1, answer := some [1] } : SolverMessage Nat).answer ≠ none) :=
  solver_message_dispatch apiGoalToy 0 100 150 (3 / 10) 1
    { distance := -1, answer := some [1] } (by decide)

end SolverClaims

end ArcDemo
